import Mathlib

/-!
Shallow embedding of the lazylabor plugin (src/plugins/lazylabor.cpp).

The data model (labor configuration, unit records, per-pass worker
profiles), the skill comparators, the rebalance pass (check_dwarves:
recount, deficit correction, surplus correction, idle-worker safety
net) and the scheduled entry point (plugin_onupdate) are translated
from the C++ source.  Machine ints become Int; the global rand()
stream becomes an explicit list of naturals consumed in call order;
the unit vector becomes a list, with worker profiles holding the index
of their unit.  std::sort is realised by a deterministic insertion
sort using the same strict comparators (the source leaves tie order
unspecified; we fix one refinement).
-/

set_option linter.unusedVariables false

/-- df::unit_skill: the fields read by the plugin. -/
structure SkillRec where
  id : Nat
  rating : Int
  experience : Int
  rusty : Int
  rust_counter : Int
deriving DecidableEq, Repr

/-- struct labor_info (configuration part; the live active counter is
threaded separately as a list of Int). skill = none models job_skill::NONE. -/
structure LaborInfo where
  skill : Option Nat
  uniformed : Bool
  minimum : Int
  maximum : Int
deriving DecidableEq, Repr

/-- The fields of df::unit read by the plugin: eligibility data, the
skill records of the current soul, and the labor assignment flags. -/
structure DfUnit where
  hasSoul : Bool
  citizen : Bool
  adult : Bool
  drunk : Bool
  military : Bool
  skills : List SkillRec
  labors : Nat → Bool

/-- struct worker: the per-pass profile; idx is the position of the
unit in the world unit list (the C++ unit pointer). -/
structure Worker where
  idx : Nat
  skilled : Int
  unskilled : Int
  total_skill : Int
  uniform : Option Nat
  this_skill : Option SkillRec
  other_skill : Option SkillRec
deriving DecidableEq, Repr

/-- Out-of-range unit accesses yield this inert, ineligible unit. -/
def defUnit : DfUnit :=
  { hasSoul := false, citizen := false, adult := false, drunk := false,
    military := false, skills := [], labors := fun _ => false }

def getU : List DfUnit → Nat → DfUnit
  | [], _ => defUnit
  | u :: _, 0 => u
  | _ :: us, i + 1 => getU us i

/-- worker->unit->status.labors[labor] = b, at unit index i. -/
def setFlag : List DfUnit → Nat → Nat → Bool → List DfUnit
  | [], _, _, _ => []
  | u :: us, 0, l, b => { u with labors := Function.update u.labors l b } :: us
  | u :: us, i + 1, l, b => u :: setFlag us i l b

def flagOf (units : List DfUnit) (i l : Nat) : Bool :=
  (getU units i).labors l

def getI : List Int → Nat → Int
  | [], _ => 0
  | x :: _, 0 => x
  | _ :: xs, i + 1 => getI xs i

def setI : List Int → Nat → Int → List Int
  | [], _, _ => []
  | _ :: xs, 0, v => v :: xs
  | x :: xs, i + 1, v => x :: setI xs i v

/-- lazy_labors[l], with an inert default outside the configured range. -/
def cfgAt (cfg : List LaborInfo) (l : Nat) : LaborInfo :=
  cfg.getD l { skill := none, uniformed := false, minimum := 0, maximum := 0 }

/-- moreSkilled: whether s1 should replace s2 as the highest skill.
Compare(a, b) in the source returns a > b at the first unequal field. -/
def moreSkilled : Option SkillRec → Option SkillRec → Bool
  | none, _ => false
  | some _, none => true
  | some s1, some s2 =>
    if s1.rating ≠ s2.rating then s1.rating > s2.rating
    else if s1.experience ≠ s2.experience then s1.experience > s2.experience
    else if s1.rusty ≠ s2.rusty then s1.rusty > s2.rusty
    else if s1.rust_counter ≠ s2.rust_counter then s1.rust_counter > s2.rust_counter
    else false

/-- sortBySkilledLabor: comparator used when the labor has a skill. -/
def sortBySkilledLabor (w1 w2 : Worker) : Bool :=
  if moreSkilled w1.this_skill w2.this_skill then true
  else if moreSkilled w2.this_skill w1.this_skill then false
  else if w2.skilled ≠ w1.skilled then w2.skilled > w1.skilled
  else if moreSkilled w1.other_skill w2.other_skill then true
  else if moreSkilled w2.other_skill w1.other_skill then false
  else if w2.unskilled ≠ w1.unskilled then w2.unskilled > w1.unskilled
  else if w2.total_skill ≠ w1.total_skill then w2.total_skill > w1.total_skill
  else false

/-- sortByUnskilledLabor: comparator used when the labor has no skill. -/
def sortByUnskilledLabor (w1 w2 : Worker) : Bool :=
  if w2.unskilled ≠ w1.unskilled then w2.unskilled > w1.unskilled
  else if moreSkilled w1.other_skill w2.other_skill then true
  else if moreSkilled w2.other_skill w1.other_skill then false
  else if w2.skilled ≠ w1.skilled then w2.skilled > w1.skilled
  else if w2.total_skill ≠ w1.total_skill then w2.total_skill > w1.total_skill
  else false

/-- One skill record of the scan at the top of sortUnitsBySkill:
accumulate total_skill (the source does not reset it between sorts),
record the record matching sort_skill, track the best other record. -/
def scanStep (ss : Option Nat) (w : Worker) (sk : SkillRec) : Worker :=
  let w := { w with total_skill := w.total_skill + sk.rating }
  if ss = some sk.id then { w with this_skill := some sk }
  else if moreSkilled (some sk) w.other_skill then { w with other_skill := some sk }
  else w

/-- The per-worker scan at the top of sortUnitsBySkill: reset this_skill
and other_skill, then fold scanStep over the unit's skill records. -/
def scanSkills (ss : Option Nat) (w : Worker) (skills : List SkillRec) : Worker :=
  skills.foldl (scanStep ss) { w with this_skill := none, other_skill := none }

def insertW (lt : Worker → Worker → Bool) (x : Worker) : List Worker → List Worker
  | [] => [x]
  | y :: ys => if lt x y then x :: y :: ys else y :: insertW lt x ys

/-- Deterministic refinement of std::sort for the two strict comparators. -/
def sortWith (lt : Worker → Worker → Bool) : List Worker → List Worker
  | [] => []
  | x :: xs => insertW lt x (sortWith lt xs)

/-- sortUnitsBySkill: scan every worker's skill records, then sort by the
skilled or unskilled comparator depending on whether sort_skill is NONE. -/
def sortUnitsBySkill (units : List DfUnit) (workers : List Worker)
    (ss : Option Nat) : List Worker :=
  sortWith (if ss.isSome then sortBySkilledLabor else sortByUnskilledLabor)
    (workers.map (fun w => scanSkills ss w (getU units w.idx).skills))

/-- can_work: soul present, citizen, adult, not DRUNK profession, not
military (the burrow check in the source is an empty placeholder). -/
def can_work (u : DfUnit) : Bool :=
  u.hasSoul && u.citizen && u.adult && !u.drunk && !u.military

/-- One labor of the recount inner loop: if the unit holds the labor,
bump its active counter, the worker's skilled or unskilled tally, and
record it as the worker's uniformed labor when it is uniformed. -/
def tallyStep (cfg : List LaborInfo) (u : DfUnit)
    (p : List Int × Worker) (l : Nat) : List Int × Worker :=
  if u.labors l then
    let act := setI p.1 l (getI p.1 l + 1)
    let w :=
      if (cfgAt cfg l).skill.isNone
      then { p.2 with unskilled := p.2.unskilled + 1 }
      else { p.2 with skilled := p.2.skilled + 1 }
    let w := if (cfgAt cfg l).uniformed then { w with uniform := some l } else w
    (act, w)
  else p

/-- The fresh worker profile pushed for unit index i before tallying. -/
def tallyInit (i : Nat) : Worker :=
  { idx := i, skilled := 0, unskilled := 0, total_skill := 0,
    uniform := none, this_skill := none, other_skill := none }

/-- The recount inner loop over the first n labors. -/
def tallyGo (cfg : List LaborInfo) (u : DfUnit) (i : Nat)
    (active : List Int) (n : Nat) : List Int × Worker :=
  (List.range n).foldl (tallyStep cfg u) (active, tallyInit i)

/-- The recount inner loop of check_dwarves for one eligible unit:
count it into every held labor's active counter and classify the
worker's skilled/unskilled tallies and uniformed labor. -/
def tallyWorker (cfg : List LaborInfo) (u : DfUnit) (i : Nat)
    (active : List Int) : List Int × Worker :=
  tallyGo cfg u i active cfg.length

/-- The recount outer loop: walk the unit list, skip ineligible units,
tally the rest (i is the index of the head of us in the full list). -/
def buildGo (cfg : List LaborInfo) : List DfUnit → Nat → List Int → List Int × List Worker
  | [], _, act => (act, [])
  | u :: us, i, act =>
    if can_work u then
      let p := tallyWorker cfg u i act
      let r := buildGo cfg us (i + 1) p.1
      (r.1, p.2 :: r.2)
    else buildGo cfg us (i + 1) act

/-- Reset all active counters and recount from the unit list. -/
def buildWorkers (cfg : List LaborInfo) (units : List DfUnit) :
    List Int × List Worker :=
  buildGo cfg units 0 (List.replicate cfg.length 0)

/-- Adjust the worker's unskilled or skilled tally by d, depending on
whether the labor being corrected has an associated skill. -/
def bumpTally (cfg : List LaborInfo) (l : Nat) (w : Worker) (d : Int) : Worker :=
  if (cfgAt cfg l).skill.isNone
  then { w with unskilled := w.unskilled + d }
  else { w with skilled := w.skilled + d }

/-- Deficit correction walk: enable the labor on workers not holding it,
in list order, until needed hits zero (if (!--needed) break). -/
def deficitWalk (cfg : List LaborInfo) (l : Nat) :
    List Worker → List DfUnit → List Int → Int → List Worker × List DfUnit × List Int
  | [], units, act, _ => ([], units, act)
  | w :: ws, units, act, needed =>
    if flagOf units w.idx l = false then
      let units1 := setFlag units w.idx l true
      let act1 := setI act l (getI act l + 1)
      let w1 := bumpTally cfg l w 1
      if needed - 1 = 0 then (w1 :: ws, units1, act1)
      else
        let r := deficitWalk cfg l ws units1 act1 (needed - 1)
        (w1 :: r.1, r.2.1, r.2.2)
    else
      let r := deficitWalk cfg l ws units act needed
      (w :: r.1, r.2.1, r.2.2)

/-- Surplus correction walk: skip the first remaining holders (if the
counter is nonzero it is just decremented), then disable holders until
excess hits zero (if (!--excess) break). -/
def surplusWalk (cfg : List LaborInfo) (l : Nat) :
    List Worker → List DfUnit → List Int → Int → Int → List Worker × List DfUnit × List Int
  | [], units, act, _, _ => ([], units, act)
  | w :: ws, units, act, remaining, excess =>
    if flagOf units w.idx l then
      if remaining ≠ 0 then
        let r := surplusWalk cfg l ws units act (remaining - 1) excess
        (w :: r.1, r.2.1, r.2.2)
      else
        let units1 := setFlag units w.idx l false
        let act1 := setI act l (getI act l - 1)
        let w1 := bumpTally cfg l w (-1)
        if excess - 1 = 0 then (w1 :: ws, units1, act1)
        else
          let r := surplusWalk cfg l ws units1 act1 remaining (excess - 1)
          (w1 :: r.1, r.2.1, r.2.2)
    else
      let r := surplusWalk cfg l ws units act remaining excess
      (w :: r.1, r.2.1, r.2.2)

/-- The mutable state of one pass: the active counters, the workers
vector, and the unit list (assignment flags live in the units). -/
structure PassSt where
  active : List Int
  workers : List Worker
  units : List DfUnit

/-- One iteration of the per-labor correction loop of check_dwarves. -/
def laborStep (cfg : List LaborInfo) (st : PassSt) (l : Nat) : PassSt :=
  let c := cfgAt cfg l
  if getI st.active l < c.minimum then
    let ws := sortUnitsBySkill st.units st.workers c.skill
    let r := deficitWalk cfg l ws st.units st.active (c.minimum - getI st.active l)
    ⟨r.2.2, r.1, r.2.1⟩
  else if getI st.active l > c.maximum then
    let ws := sortUnitsBySkill st.units st.workers c.skill
    let r := surplusWalk cfg l ws st.units st.active c.maximum
        (getI st.active l - c.maximum)
    ⟨r.2.2, r.1, r.2.1⟩
  else st

/-- Recount followed by the full per-labor correction loop: the state of
check_dwarves just before the idle-worker safety net. -/
def correctionsStage (cfg : List LaborInfo) (units : List DfUnit) : PassSt :=
  let b := buildWorkers cfg units
  (List.range cfg.length).foldl (laborStep cfg) ⟨b.1, b.2, units⟩

/-- Reservoir sampling loop: for each candidate labor, consume one
rand() value; the candidate is selected when rand() % ++found == 0. -/
def reservoir (cand : Nat → Bool) (n : Nat) (rng : List Nat) :
    Option Nat × Nat × List Nat :=
  (List.range n).foldl
    (fun (p : Option Nat × Nat × List Nat) l =>
      if cand l then
        let r := p.2.2.headD 0
        let found := p.2.1 + 1
        if r % found = 0 then (some l, found, p.2.2.tail)
        else (p.1, found, p.2.2.tail)
      else p)
    (none, 0, rng)

/-- Candidate predicate for the skilled reservoir pick. -/
def skilledCand (cfg : List LaborInfo) (active : List Int) (l : Nat) : Bool :=
  !(cfgAt cfg l).skill.isNone && decide (getI active l < (cfgAt cfg l).maximum)

/-- Candidate predicate for the unskilled picks. -/
def unskilledCand (cfg : List LaborInfo) (active : List Int) (l : Nat) : Bool :=
  (cfgAt cfg l).skill.isNone && decide (getI active l < (cfgAt cfg l).maximum)

/-- The loop under the comment "Enable *all* unskilled labors" in the
source writes only the local variable selected, which is never read
afterwards, so it changes no unit state; we model the value it leaves
in selected. -/
def deadUnskilledScan (cfg : List LaborInfo) (active : List Int)
    (sel : Option Nat) : Option Nat :=
  (List.range cfg.length).foldl
    (fun s l => if unskilledCand cfg active l then some l else s) sel

/-- if (found) worker->unit->status.labors[selected] = true: apply the
reservoir pick to the worker's unit when any candidate was seen. -/
def applyPick (units : List DfUnit) (i : Nat)
    (r : Option Nat × Nat × List Nat) : List DfUnit :=
  if r.2.1 ≠ 0 then
    match r.1 with
    | some l => setFlag units i l true
    | none => units
  else units

/-- The idle-worker safety net body for one worker.  Note that the
source neither updates the active counters nor the worker tallies
here, and the all-unskilled branch is the dead scan above. -/
def safetyStep (cfg : List LaborInfo) (active : List Int)
    (acc : List DfUnit × List Nat) (w : Worker) : List DfUnit × List Nat :=
  if w.skilled = 0 then
    let r := reservoir (skilledCand cfg active) cfg.length acc.2
    let units := applyPick acc.1 w.idx r
    let units :=
      if w.unskilled = 0 then
        let _sel := deadUnskilledScan cfg active r.1
        units
      else units
    (units, r.2.2)
  else if w.unskilled = 0 then
    let r := reservoir (unskilledCand cfg active) cfg.length acc.2
    (applyPick acc.1 w.idx r, r.2.2)
  else acc

/-- The final safety-net pass over the workers vector (in the order the
last sort left it), threading the unit list and the rand() stream. -/
def safetyNet (cfg : List LaborInfo) (active : List Int)
    (workers : List Worker) (units : List DfUnit) (rng : List Nat) :
    List DfUnit × List Nat :=
  workers.foldl (safetyStep cfg active) (units, rng)

/-- The full result of one check_dwarves pass. -/
structure PassResult where
  active : List Int
  workers : List Worker
  units : List DfUnit
  rng : List Nat

/-- check_dwarves: recount, per-labor deficit/surplus corrections, then
the idle-worker safety net. -/
def check_dwarves_full (cfg : List LaborInfo) (units : List DfUnit)
    (rng : List Nat) : PassResult :=
  let st := correctionsStage cfg units
  let fin := safetyNet cfg st.active st.workers st.units rng
  ⟨st.active, st.workers, fin.1, fin.2⟩

def check_dwarves (cfg : List LaborInfo) (units : List DfUnit)
    (rng : List Nat) : List DfUnit :=
  (check_dwarves_full cfg units rng).units

/-- DFHack command_result values used by the plugin. -/
inductive CommandResult where
  | CR_OK
  | CR_FAILURE
deriving DecidableEq, Repr

/-- Run about once a day. -/
def DELTA_TICKS : Int := 1200

/-- The global state read and written by plugin_onupdate: the enabled
flag, the saved frame count, and the host world (frame counter,
fortress-mode flag, units, and the rand() stream). -/
structure GlobalSt where
  enabled : Bool
  last_frame_count : Int
  frame_counter : Int
  fortressMode : Bool
  units : List DfUnit
  rng : List Nat

/-- The state left by a due, enabled update: the frame count is saved
and one pass runs. -/
def afterPass (cfg : List LaborInfo) (s : GlobalSt) : GlobalSt :=
  let r := check_dwarves_full cfg s.units s.rng
  { s with last_frame_count := s.frame_counter, units := r.units, rng := r.rng }

/-- plugin_onupdate: run a pass when enabled, in fortress mode, and at
least DELTA_TICKS frames past the last run; always return CR_OK. -/
def plugin_onupdate (cfg : List LaborInfo) (s : GlobalSt) :
    CommandResult × GlobalSt :=
  if s.enabled && s.fortressMode
      && decide (s.frame_counter - s.last_frame_count ≥ DELTA_TICKS) then
    (CommandResult.CR_OK, afterPass cfg s)
  else (CommandResult.CR_OK, s)

/-! ## Specification-side counting functions -/

/-- Number of eligible units currently holding labor l (as an Int, to
compare with the configured bounds). -/
def eligHolders (units : List DfUnit) (l : Nat) : Int :=
  (units.countP (fun u => can_work u && u.labors l) : Int)

/-- Number of workers in a profile list whose unit holds labor l. -/
def countH (ws : List Worker) (units : List DfUnit) (l : Nat) : Nat :=
  ws.countP (fun w => flagOf units w.idx l)

/-- Sum of the skill ratings of a list of skill records. -/
def skillMass (skills : List SkillRec) : Int :=
  (skills.map (fun sk => sk.rating)).sum

/-- Number of held labors of u that have an associated skill. -/
def skilledCnt (cfg : List LaborInfo) (u : DfUnit) : Int :=
  (((List.range cfg.length).countP
    (fun l => u.labors l && !(cfgAt cfg l).skill.isNone)) : Int)

/-- Number of held labors of u that have no associated skill. -/
def unskilledCnt (cfg : List LaborInfo) (u : DfUnit) : Int :=
  (((List.range cfg.length).countP
    (fun l => u.labors l && (cfgAt cfg l).skill.isNone)) : Int)

/-- The last uniformed labor held by u, in enumeration order. -/
def uniformHeldSpec (cfg : List LaborInfo) (u : DfUnit) : Option Nat :=
  ((List.range cfg.length).filter
    (fun l => u.labors l && (cfgAt cfg l).uniformed)).getLast?

/-! ## Basic lemmas about the list accessors -/

theorem setFlag_oob : ∀ (units : List DfUnit) (i l : Nat) (b : Bool),
    units.length ≤ i → setFlag units i l b = units := by
  intro units
  induction units with
  | nil => intro i l b h; rfl
  | cons u us ih =>
    intro i l b h
    cases i with
    | zero => simp at h
    | succ j => simp only [setFlag, List.length_cons] at h ⊢; rw [ih j l b (by omega)]

theorem length_setFlag : ∀ (units : List DfUnit) (i l : Nat) (b : Bool),
    (setFlag units i l b).length = units.length := by
  intro units
  induction units with
  | nil => intro i l b; rfl
  | cons u us ih =>
    intro i l b
    cases i with
    | zero => rfl
    | succ j => simp only [setFlag, List.length_cons, ih]

theorem getU_setFlag_ne : ∀ (units : List DfUnit) (i j l : Nat) (b : Bool),
    j ≠ i → getU (setFlag units i l b) j = getU units j := by
  intro units
  induction units with
  | nil => intro i j l b h; rfl
  | cons u us ih =>
    intro i j l b h
    cases i with
    | zero =>
      cases j with
      | zero => exact absurd rfl h
      | succ j' => rfl
    | succ i' =>
      cases j with
      | zero => rfl
      | succ j' => exact ih i' j' l b (by omega)

theorem getU_setFlag_self : ∀ (units : List DfUnit) (i l : Nat) (b : Bool),
    i < units.length →
    getU (setFlag units i l b) i
      = { getU units i with labors := Function.update (getU units i).labors l b } := by
  intro units
  induction units with
  | nil => intro i l b h; simp at h
  | cons u us ih =>
    intro i l b h
    cases i with
    | zero => rfl
    | succ j => exact ih j l b (by simpa using Nat.lt_of_succ_lt_succ h)

theorem can_work_setFlag (units : List DfUnit) (i j l : Nat) (b : Bool) :
    can_work (getU (setFlag units i l b) j) = can_work (getU units j) := by
  by_cases hj : j = i
  · subst hj
    by_cases hr : j < units.length
    · rw [getU_setFlag_self units j l b hr]; rfl
    · rw [setFlag_oob units j l b (by omega)]
  · rw [getU_setFlag_ne units i j l b hj]

theorem skills_setFlag (units : List DfUnit) (i j l : Nat) (b : Bool) :
    (getU (setFlag units i l b) j).skills = (getU units j).skills := by
  by_cases hj : j = i
  · subst hj
    by_cases hr : j < units.length
    · rw [getU_setFlag_self units j l b hr]
    · rw [setFlag_oob units j l b (by omega)]
  · rw [getU_setFlag_ne units i j l b hj]

theorem flagOf_setFlag_self (units : List DfUnit) (i l : Nat) (b : Bool)
    (h : i < units.length) : flagOf (setFlag units i l b) i l = b := by
  unfold flagOf
  rw [getU_setFlag_self units i l b h]
  simp [Function.update_same]

theorem flagOf_setFlag_other (units : List DfUnit) (i j l l' : Nat) (b : Bool)
    (h : j ≠ i ∨ l' ≠ l) : flagOf (setFlag units i l b) j l' = flagOf units j l' := by
  unfold flagOf
  rcases h with h | h
  · rw [getU_setFlag_ne units i j l b h]
  · by_cases hj : j = i
    · subst hj
      by_cases hr : j < units.length
      · rw [getU_setFlag_self units j l b hr]
        simp [Function.update_noteq h]
      · rw [setFlag_oob units j l b (by omega)]
    · rw [getU_setFlag_ne units i j l b hj]

theorem setI_oob : ∀ (xs : List Int) (i : Nat) (v : Int),
    xs.length ≤ i → setI xs i v = xs := by
  intro xs
  induction xs with
  | nil => intro i v h; rfl
  | cons x rest ih =>
    intro i v h
    cases i with
    | zero => simp at h
    | succ j => simp only [setI, List.length_cons] at h ⊢; rw [ih j v (by omega)]

theorem length_setI : ∀ (xs : List Int) (i : Nat) (v : Int),
    (setI xs i v).length = xs.length := by
  intro xs
  induction xs with
  | nil => intro i v; rfl
  | cons x rest ih =>
    intro i v
    cases i with
    | zero => rfl
    | succ j => simp only [setI, List.length_cons, ih]

theorem getI_setI_self : ∀ (xs : List Int) (i : Nat) (v : Int),
    i < xs.length → getI (setI xs i v) i = v := by
  intro xs
  induction xs with
  | nil => intro i v h; simp at h
  | cons x rest ih =>
    intro i v h
    cases i with
    | zero => rfl
    | succ j => exact ih j v (by simpa using Nat.lt_of_succ_lt_succ h)

theorem getI_setI_other : ∀ (xs : List Int) (i j : Nat) (v : Int),
    j ≠ i → getI (setI xs i v) j = getI xs j := by
  intro xs
  induction xs with
  | nil => intro i j v h; rfl
  | cons x rest ih =>
    intro i j v h
    cases i with
    | zero =>
      cases j with
      | zero => exact absurd rfl h
      | succ j' => rfl
    | succ i' =>
      cases j with
      | zero => rfl
      | succ j' => exact ih i' j' v (by omega)

theorem getI_replicate (n i : Nat) : getI (List.replicate n 0) i = 0 := by
  induction n generalizing i with
  | zero => rfl
  | succ m ih =>
    cases i with
    | zero => rfl
    | succ j => exact ih j

/-! ## Counting lemmas for eligible holders -/

theorem can_work_labors_update (u : DfUnit) (f : Nat → Bool) :
    can_work { u with labors := f } = can_work u := rfl

theorem eligHolders_nonneg (units : List DfUnit) (l : Nat) :
    0 ≤ eligHolders units l := by
  unfold eligHolders; exact Int.ofNat_nonneg _

theorem eligHolders_setFlag_other : ∀ (units : List DfUnit) (i l l' : Nat) (b : Bool),
    l' ≠ l → eligHolders (setFlag units i l b) l' = eligHolders units l' := by
  intro units
  induction units with
  | nil => intro i l l' b h; rfl
  | cons u us ih =>
    intro i l l' b h
    cases i with
    | zero =>
      simp [setFlag, eligHolders, List.countP_cons, can_work_labors_update,
        Function.update_noteq h]
    | succ j =>
      simp only [setFlag, eligHolders, List.countP_cons] at *
      have := ih j l l' b h
      push_cast at this ⊢
      omega

theorem eligHolders_setFlag_set : ∀ (units : List DfUnit) (i l : Nat) (b : Bool),
    i < units.length → can_work (getU units i) = true →
    eligHolders (setFlag units i l b) l
      = eligHolders units l - (if flagOf units i l then 1 else 0)
        + (if b then 1 else 0) := by
  intro units
  induction units with
  | nil => intro i l b h _; simp at h
  | cons u us ih =>
    intro i l b hi hc
    cases i with
    | zero =>
      have hcw : can_work u = true := hc
      simp only [setFlag, eligHolders, List.countP_cons, can_work_labors_update,
        Function.update_same, flagOf, getU, hcw, Bool.true_and]
      rcases Bool.eq_false_or_eq_true b with hb | hb <;>
        rcases Bool.eq_false_or_eq_true (u.labors l) with hf | hf <;>
          simp only [hb, hf] <;> push_cast <;> omega
    | succ j =>
      have hj : j < us.length := by simpa using Nat.lt_of_succ_lt_succ hi
      have hcj : can_work (getU us j) = true := hc
      have := ih j l b hj hcj
      simp only [setFlag, eligHolders, List.countP_cons, flagOf, getU] at this ⊢
      push_cast at this ⊢
      omega

/-- Flags agree pointwise at the workers' indices, so the holder counts
agree. -/
theorem countH_congr (ws : List Worker) (units1 units2 : List DfUnit) (l : Nat)
    (h : ∀ w ∈ ws, flagOf units1 w.idx l = flagOf units2 w.idx l) :
    countH ws units1 l = countH ws units2 l := by
  unfold countH
  refine List.countP_congr ?_
  intro w hw
  rw [h w hw]

/-! ## Correctness of the recount (tallyWorker, buildGo) -/

theorem tallyGo_spec (cfg : List LaborInfo) (u : DfUnit) (i : Nat)
    (active : List Int) (hlen : active.length = cfg.length) :
    ∀ n, n ≤ cfg.length →
      (tallyGo cfg u i active n).1.length = cfg.length
      ∧ (∀ l, getI (tallyGo cfg u i active n).1 l
          = getI active l + (if l < n ∧ u.labors l = true then 1 else 0))
      ∧ (tallyGo cfg u i active n).2.idx = i
      ∧ (tallyGo cfg u i active n).2.total_skill = 0
      ∧ (tallyGo cfg u i active n).2.this_skill = none
      ∧ (tallyGo cfg u i active n).2.other_skill = none
      ∧ ((tallyGo cfg u i active n).2.skilled
          = (((List.range n).countP
              (fun l => u.labors l && !(cfgAt cfg l).skill.isNone)) : Int))
      ∧ ((tallyGo cfg u i active n).2.unskilled
          = (((List.range n).countP
              (fun l => u.labors l && (cfgAt cfg l).skill.isNone)) : Int))
      ∧ ((tallyGo cfg u i active n).2.uniform
          = ((List.range n).filter
              (fun l => u.labors l && (cfgAt cfg l).uniformed)).getLast?) := by
  intro n
  induction n with
  | zero =>
    intro _
    refine ⟨hlen, ?_, rfl, rfl, rfl, rfl, rfl, rfl, rfl⟩
    intro l; simp [tallyGo]
  | succ m ih =>
    intro hm
    have hm' : m ≤ cfg.length := Nat.le_of_succ_le hm
    obtain ⟨h1, h2, h3, h4, h5, h6, h7, h8, h9⟩ := ih hm'
    have hstep : tallyGo cfg u i active (m + 1)
        = tallyStep cfg u (tallyGo cfg u i active m) m := by
      unfold tallyGo
      rw [List.range_succ, List.foldl_append, List.foldl_cons, List.foldl_nil]
    rw [hstep]
    by_cases hl : u.labors m = true
    · have hm2 : m < (tallyGo cfg u i active m).1.length := by rw [h1]; omega
      constructor
      · simp only [tallyStep, hl, if_true]
        rw [length_setI]; exact h1
      constructor
      · intro l
        simp only [tallyStep, hl, if_true]
        by_cases hlm : l = m
        · subst hlm
          rw [getI_setI_self _ _ _ hm2, h2 l]
          simp [hl]
        · rw [getI_setI_other _ _ _ _ (by omega), h2 l]
          have : (l < m ∧ u.labors l = true) ↔ (l < m + 1 ∧ u.labors l = true) := by
            constructor
            · rintro ⟨h, h'⟩; exact ⟨by omega, h'⟩
            · rintro ⟨h, h'⟩; exact ⟨by omega, h'⟩
          simp only [this]
      · -- the worker-field conjuncts
        have hcP : (List.range (m + 1)).countP
            (fun l => u.labors l && !(cfgAt cfg l).skill.isNone)
            = (List.range m).countP
                (fun l => u.labors l && !(cfgAt cfg l).skill.isNone)
              + if (u.labors m && !(cfgAt cfg m).skill.isNone) then 1 else 0 := by
          rw [List.range_succ, List.countP_append]
          simp [List.countP_cons]
        have hcQ : (List.range (m + 1)).countP
            (fun l => u.labors l && (cfgAt cfg l).skill.isNone)
            = (List.range m).countP
                (fun l => u.labors l && (cfgAt cfg l).skill.isNone)
              + if (u.labors m && (cfgAt cfg m).skill.isNone) then 1 else 0 := by
          rw [List.range_succ, List.countP_append]
          simp [List.countP_cons]
        have hfR : (List.range (m + 1)).filter
            (fun l => u.labors l && (cfgAt cfg l).uniformed)
            = (List.range m).filter (fun l => u.labors l && (cfgAt cfg l).uniformed)
              ++ if (u.labors m && (cfgAt cfg m).uniformed)
                  then [m] else [] := by
          rw [List.range_succ, List.filter_append]
          by_cases h : (u.labors m && (cfgAt cfg m).uniformed) = true
          · simp [h]
          · simp [List.filter_cons, h]
        by_cases hsk : (cfgAt cfg m).skill.isNone = true
        · by_cases huf : (cfgAt cfg m).uniformed = true
          · simp only [tallyStep, hl, if_true, hsk, huf]
            refine ⟨h3, h4, h5, h6, ?_, ?_, ?_⟩
            · rw [hcP, h7]; simp [hl, hsk]
            · rw [hcQ, h8]; simp [hl, hsk]
            · rw [hfR]; simp [hl, huf, List.getLast?_concat]
          · simp only [tallyStep, hl, if_true, hsk, huf]
            refine ⟨h3, h4, h5, h6, ?_, ?_, ?_⟩
            · rw [hcP, h7]; simp [hl, hsk]
            · rw [hcQ, h8]; simp [hl, hsk]
            · rw [hfR, h9]
              simp [hl, huf]
        · by_cases huf : (cfgAt cfg m).uniformed = true
          · simp only [tallyStep, hl, if_true, hsk, huf]
            refine ⟨h3, h4, h5, h6, ?_, ?_, ?_⟩
            · rw [hcP, h7]; simp [hl, hsk]
            · rw [hcQ, h8]; simp [hl, hsk]
            · rw [hfR]; simp [hl, huf, List.getLast?_concat]
          · simp only [tallyStep, hl, if_true, hsk, huf]
            refine ⟨h3, h4, h5, h6, ?_, ?_, ?_⟩
            · rw [hcP, h7]; simp [hl, hsk]
            · rw [hcQ, h8]; simp [hl, hsk]
            · rw [hfR, h9]
              simp [hl, huf]
    · have hl' : u.labors m = false := by
        cases h : u.labors m
        · rfl
        · exact absurd h hl
      have hs : tallyStep cfg u (tallyGo cfg u i active m) m
          = tallyGo cfg u i active m := by
        simp [tallyStep, hl']
      rw [hs]
      refine ⟨h1, ?_, h3, h4, h5, h6, ?_, ?_, ?_⟩
      · intro l
        rw [h2 l]
        by_cases hlm : l = m
        · subst hlm; simp [hl']
        · have : (l < m ∧ u.labors l = true) ↔ (l < m + 1 ∧ u.labors l = true) := by
            constructor
            · rintro ⟨h, h'⟩; exact ⟨by omega, h'⟩
            · rintro ⟨h, h'⟩
              refine ⟨?_, h'⟩
              rcases Nat.lt_succ_iff_lt_or_eq.mp h with h | h
              · exact h
              · subst h; rw [hl'] at h'; cases h'
          simp only [this]
      · rw [h7, List.range_succ, List.countP_append]
        simp [List.countP_cons, hl']
      · rw [h8, List.range_succ, List.countP_append]
        simp [List.countP_cons, hl']
      · rw [h9, List.range_succ, List.filter_append]
        simp [List.filter_cons, hl']

theorem tallyWorker_spec (cfg : List LaborInfo) (u : DfUnit) (i : Nat)
    (active : List Int) (hlen : active.length = cfg.length) :
    (tallyWorker cfg u i active).1.length = cfg.length
    ∧ (∀ l, getI (tallyWorker cfg u i active).1 l
        = getI active l + (if l < cfg.length ∧ u.labors l = true then 1 else 0))
    ∧ (tallyWorker cfg u i active).2.idx = i
    ∧ (tallyWorker cfg u i active).2.total_skill = 0
    ∧ (tallyWorker cfg u i active).2.this_skill = none
    ∧ (tallyWorker cfg u i active).2.other_skill = none
    ∧ (tallyWorker cfg u i active).2.skilled = skilledCnt cfg u
    ∧ (tallyWorker cfg u i active).2.unskilled = unskilledCnt cfg u
    ∧ (tallyWorker cfg u i active).2.uniform = uniformHeldSpec cfg u := by
  have h := tallyGo_spec cfg u i active hlen cfg.length (le_refl _)
  simpa [tallyWorker, skilledCnt, unskilledCnt, uniformHeldSpec] using h

theorem buildGo_spec (cfg : List LaborInfo) (units : List DfUnit) :
    ∀ (us : List DfUnit) (i : Nat) (act : List Int),
      act.length = cfg.length →
      (∀ j, getU units (i + j) = getU us j) →
      i + us.length = units.length →
      (buildGo cfg us i act).1.length = cfg.length
      ∧ (∀ l, l < cfg.length →
          getI (buildGo cfg us i act).1 l
            = getI act l + (us.countP (fun u => can_work u && u.labors l) : Int))
      ∧ (∀ w ∈ (buildGo cfg us i act).2,
          i ≤ w.idx ∧ w.idx < units.length
          ∧ can_work (getU units w.idx) = true
          ∧ w.skilled = skilledCnt cfg (getU units w.idx)
          ∧ w.unskilled = unskilledCnt cfg (getU units w.idx)
          ∧ w.total_skill = 0
          ∧ w.this_skill = none ∧ w.other_skill = none
          ∧ w.uniform = uniformHeldSpec cfg (getU units w.idx))
      ∧ (((buildGo cfg us i act).2.map (fun w => w.idx)).Nodup)
      ∧ (∀ l, countH (buildGo cfg us i act).2 units l
          = us.countP (fun u => can_work u && u.labors l)) := by
  intro us
  induction us with
  | nil =>
    intro i act hlen hsuf hcnt
    refine ⟨hlen, ?_, ?_, ?_, ?_⟩
    · intro l hl; simp [buildGo]
    · intro w hw; simp [buildGo] at hw
    · simp [buildGo]
    · intro l; simp [buildGo, countH]
  | cons u us' ih =>
    intro i act hlen hsuf hcnt
    have hgetu : getU units i = u := by simpa using hsuf 0
    have hsuf' : ∀ j, getU units (i + 1 + j) = getU us' j := by
      intro j
      have := hsuf (j + 1)
      have harith : i + (j + 1) = i + 1 + j := by omega
      rw [harith] at this
      simpa [getU] using this
    have hcnt' : i + 1 + us'.length = units.length := by
      simp only [List.length_cons] at hcnt; omega
    by_cases hcw : can_work u = true
    · have hT := tallyWorker_spec cfg u i act hlen
      obtain ⟨t1, t2, t3, t4, t5, t6, t7, t8, t9⟩ := hT
      have hIH := ih (i + 1) (tallyWorker cfg u i act).1 t1 hsuf' hcnt'
      obtain ⟨g1, g2, g3, g4, g5⟩ := hIH
      have hunf : buildGo cfg (u :: us') i act
          = ((buildGo cfg us' (i + 1) (tallyWorker cfg u i act).1).1,
             (tallyWorker cfg u i act).2
               :: (buildGo cfg us' (i + 1) (tallyWorker cfg u i act).1).2) := by
        simp [buildGo, hcw]
      rw [hunf]
      refine ⟨g1, ?_, ?_, ?_, ?_⟩
      · intro l hl
        have := g2 l hl
        rw [this, t2 l]
        simp only [List.countP_cons, hcw, Bool.true_and]
        by_cases hfl : u.labors l = true
        · simp [hfl, hl]; omega
        · have : u.labors l = false := by
            cases h : u.labors l
            · rfl
            · exact absurd h hfl
          simp [this]
      · intro w hw
        rcases List.mem_cons.mp hw with hw | hw
        · subst hw
          rw [t3, hgetu]
          exact ⟨le_refl i, by omega, hcw, t7, t8, t4, t5, t6, t9⟩
        · obtain ⟨b1, b2, b3, b4, b5, b6, b7, b8, b9⟩ := g3 w hw
          exact ⟨by omega, b2, b3, b4, b5, b6, b7, b8, b9⟩
      · rw [List.map_cons, List.nodup_cons]
        refine ⟨?_, g4⟩
        intro hmem
        rw [List.mem_map] at hmem
        obtain ⟨w, hw, hwi⟩ := hmem
        obtain ⟨b1, _⟩ := g3 w hw
        rw [t3] at hwi
        omega
      · intro l
        simp only [countH, List.countP_cons]
        have := g5 l
        simp only [countH] at this
        rw [this, t3]
        simp only [flagOf, hgetu, hcw, Bool.true_and]
    · have hcw' : can_work u = false := by
        cases h : can_work u
        · rfl
        · exact absurd h hcw
      have hunf : buildGo cfg (u :: us') i act = buildGo cfg us' (i + 1) act := by
        simp [buildGo, hcw']
      rw [hunf]
      have hIH := ih (i + 1) act hlen hsuf' hcnt'
      obtain ⟨g1, g2, g3, g4, g5⟩ := hIH
      refine ⟨g1, ?_, ?_, g4, ?_⟩
      · intro l hl
        rw [g2 l hl]
        simp [List.countP_cons, hcw']
      · intro w hw
        obtain ⟨b1, b2, b3, b4, b5, b6, b7, b8, b9⟩ := g3 w hw
        exact ⟨by omega, b2, b3, b4, b5, b6, b7, b8, b9⟩
      · intro l
        rw [g5 l]
        simp [List.countP_cons, hcw']

/-- Correctness of the recount: the rebuilt active counters equal the
eligible-holder counts, the workers cover exactly the eligible units
(one profile each, indices distinct), and each profile's tallies match
its unit. -/
theorem buildWorkers_spec (cfg : List LaborInfo) (units : List DfUnit) :
    (buildWorkers cfg units).1.length = cfg.length
    ∧ (∀ l, l < cfg.length →
        getI (buildWorkers cfg units).1 l = eligHolders units l)
    ∧ (∀ w ∈ (buildWorkers cfg units).2,
        w.idx < units.length
        ∧ can_work (getU units w.idx) = true
        ∧ w.skilled = skilledCnt cfg (getU units w.idx)
        ∧ w.unskilled = unskilledCnt cfg (getU units w.idx)
        ∧ w.total_skill = 0
        ∧ w.this_skill = none ∧ w.other_skill = none
        ∧ w.uniform = uniformHeldSpec cfg (getU units w.idx))
    ∧ (((buildWorkers cfg units).2.map (fun w => w.idx)).Nodup)
    ∧ (∀ l, (countH (buildWorkers cfg units).2 units l : Int) = eligHolders units l) := by
  have h := buildGo_spec cfg units units 0 (List.replicate cfg.length 0)
    (by simp) (by intro j; simp) (by simp)
  obtain ⟨g1, g2, g3, g4, g5⟩ := h
  refine ⟨g1, ?_, ?_, g4, ?_⟩
  · intro l hl
    have := g2 l hl
    rw [getI_replicate] at this
    simpa [buildWorkers, eligHolders] using this
  · intro w hw
    obtain ⟨_, b2, b3, b4, b5, b6, b7, b8, b9⟩ := g3 w hw
    exact ⟨b2, b3, b4, b5, b6, b7, b8, b9⟩
  · intro l
    have := g5 l
    simp only [buildWorkers, eligHolders]
    rw [this]

/-! ## Sorting lemmas: permutation and field preservation -/

theorem insertW_perm (lt : Worker → Worker → Bool) (x : Worker) :
    ∀ ys, (insertW lt x ys).Perm (x :: ys) := by
  intro ys
  induction ys with
  | nil => simp [insertW]
  | cons y ys ih =>
    simp only [insertW]
    by_cases h : lt x y = true
    · rw [if_pos h]
    · rw [if_neg h]
      exact (List.Perm.cons y ih).trans (List.Perm.swap x y ys)

theorem sortWith_perm (lt : Worker → Worker → Bool) :
    ∀ ws, (sortWith lt ws).Perm ws := by
  intro ws
  induction ws with
  | nil => simp [sortWith]
  | cons w ws ih =>
    simp only [sortWith]
    exact (insertW_perm lt w (sortWith lt ws)).trans (List.Perm.cons w ih)

theorem scanStep_fields (ss : Option Nat) (w : Worker) (sk : SkillRec) :
    (scanStep ss w sk).idx = w.idx
    ∧ (scanStep ss w sk).skilled = w.skilled
    ∧ (scanStep ss w sk).unskilled = w.unskilled
    ∧ (scanStep ss w sk).uniform = w.uniform
    ∧ (scanStep ss w sk).total_skill = w.total_skill + sk.rating := by
  by_cases h1 : ss = some sk.id
  · simp [scanStep, h1]
  · by_cases h2 : moreSkilled (some sk) w.other_skill = true
    · simp [scanStep, h1, h2]
    · simp [scanStep, h1, h2]

theorem scanFold_fields (ss : Option Nat) :
    ∀ (skills : List SkillRec) (w0 : Worker),
      (skills.foldl (scanStep ss) w0).idx = w0.idx
      ∧ (skills.foldl (scanStep ss) w0).skilled = w0.skilled
      ∧ (skills.foldl (scanStep ss) w0).unskilled = w0.unskilled
      ∧ (skills.foldl (scanStep ss) w0).uniform = w0.uniform
      ∧ (skills.foldl (scanStep ss) w0).total_skill
          = w0.total_skill + skillMass skills := by
  intro skills
  induction skills with
  | nil => intro w0; exact ⟨rfl, rfl, rfl, rfl, by simp [skillMass]⟩
  | cons sk rest ih =>
    intro w0
    obtain ⟨s1, s2, s3, s4, s5⟩ := scanStep_fields ss w0 sk
    obtain ⟨f1, f2, f3, f4, f5⟩ := ih (scanStep ss w0 sk)
    rw [List.foldl_cons]
    refine ⟨by rw [f1, s1], by rw [f2, s2], by rw [f3, s3], by rw [f4, s4], ?_⟩
    rw [f5, s5]
    simp [skillMass]
    omega

theorem scanSkills_fields (ss : Option Nat) (w : Worker) (skills : List SkillRec) :
    (scanSkills ss w skills).idx = w.idx
    ∧ (scanSkills ss w skills).skilled = w.skilled
    ∧ (scanSkills ss w skills).unskilled = w.unskilled
    ∧ (scanSkills ss w skills).uniform = w.uniform
    ∧ (scanSkills ss w skills).total_skill = w.total_skill + skillMass skills := by
  unfold scanSkills
  exact scanFold_fields ss skills { w with this_skill := none, other_skill := none }

/-- Every profile in the sorted list is the scan of some input profile:
same index and tallies, total_skill increased by the unit's skill mass. -/
theorem sortUnits_mem (units : List DfUnit) (ws : List Worker) (ss : Option Nat) :
    ∀ w' ∈ sortUnitsBySkill units ws ss, ∃ w ∈ ws,
      w'.idx = w.idx ∧ w'.skilled = w.skilled ∧ w'.unskilled = w.unskilled
      ∧ w'.uniform = w.uniform
      ∧ w'.total_skill = w.total_skill + skillMass (getU units w.idx).skills := by
  intro w' hw'
  unfold sortUnitsBySkill at hw'
  have hperm := sortWith_perm
    (if ss.isSome then sortBySkilledLabor else sortByUnskilledLabor)
    (ws.map (fun w => scanSkills ss w (getU units w.idx).skills))
  have hmem := hperm.mem_iff.mp hw'
  rw [List.mem_map] at hmem
  obtain ⟨w, hw, hscan⟩ := hmem
  obtain ⟨f1, f2, f3, f4, f5⟩ := scanSkills_fields ss w (getU units w.idx).skills
  subst hscan
  exact ⟨w, hw, f1, f2, f3, f4, f5⟩

/-- The sorted index list is a permutation of the input index list. -/
theorem sortUnits_idx_perm (units : List DfUnit) (ws : List Worker) (ss : Option Nat) :
    ((sortUnitsBySkill units ws ss).map (fun w => w.idx)).Perm
      (ws.map (fun w => w.idx)) := by
  unfold sortUnitsBySkill
  have hperm := sortWith_perm
    (if ss.isSome then sortBySkilledLabor else sortByUnskilledLabor)
    (ws.map (fun w => scanSkills ss w (getU units w.idx).skills))
  refine (hperm.map (fun w => w.idx)).trans ?_
  rw [List.map_map]
  have : ((fun w => w.idx) ∘ fun w => scanSkills ss w (getU units w.idx).skills)
      = (fun w : Worker => w.idx) := by
    funext w
    exact (scanSkills_fields ss w (getU units w.idx).skills).1
  rw [this]

theorem sortUnits_countH (units units2 : List DfUnit) (ws : List Worker)
    (ss : Option Nat) (l : Nat) :
    countH (sortUnitsBySkill units ws ss) units2 l = countH ws units2 l := by
  have hperm := sortUnits_idx_perm units ws ss
  unfold countH
  have h1 : ∀ (vs : List Worker),
      vs.countP (fun w => flagOf units2 w.idx l)
        = (vs.map (fun w => w.idx)).countP (fun i => flagOf units2 i l) := by
    intro vs; rw [List.countP_map]; rfl
  rw [h1, h1 ws, hperm.countP_eq]

theorem sortUnits_nodup (units : List DfUnit) (ws : List Worker) (ss : Option Nat)
    (h : (ws.map (fun w => w.idx)).Nodup) :
    ((sortUnitsBySkill units ws ss).map (fun w => w.idx)).Nodup :=
  (sortUnits_idx_perm units ws ss).nodup_iff.mpr h

/-! ## Congruence lemmas and monotone flag updates -/

theorem countP_getU (f : DfUnit → Bool) :
    ∀ us : List DfUnit,
      us.countP f = (List.range us.length).countP (fun i => f (getU us i)) := by
  intro us
  induction us with
  | nil => rfl
  | cons u rest ih =>
    have hcomp : ((fun i => f (getU (u :: rest) i)) ∘ Nat.succ)
        = (fun i => f (getU rest i)) := by
      funext i; rfl
    rw [List.countP_cons, List.length_cons, List.range_succ_eq_map,
      List.countP_cons, List.countP_map, hcomp, ← ih]
    rfl

theorem eligHolders_congr (units1 units2 : List DfUnit) (l : Nat)
    (hlen : units1.length = units2.length)
    (hcw : ∀ j, can_work (getU units1 j) = can_work (getU units2 j))
    (hfl : ∀ j, flagOf units1 j l = flagOf units2 j l) :
    eligHolders units1 l = eligHolders units2 l := by
  unfold eligHolders
  rw [countP_getU, countP_getU, hlen]
  congr 1
  refine List.countP_congr ?_
  intro i hi
  have h1 := hcw i
  have h2 := hfl i
  unfold flagOf at h2
  rw [h1, h2]

theorem flagOf_setFlag_true_mono (units : List DfUnit) (i j l : Nat)
    (h : flagOf units j l = true) : flagOf (setFlag units i l true) j l = true := by
  by_cases hj : j = i
  · subst hj
    by_cases hr : j < units.length
    · exact flagOf_setFlag_self units j l true hr
    · rw [setFlag_oob units j l true (by omega)]; exact h
  · rw [flagOf_setFlag_other units i j l l true (Or.inl hj)]; exact h

theorem flagOf_setFlag_false_mono (units : List DfUnit) (i j l : Nat)
    (h : flagOf units j l = false) : flagOf (setFlag units i l false) j l = false := by
  by_cases hj : j = i
  · subst hj
    by_cases hr : j < units.length
    · exact flagOf_setFlag_self units j l false hr
    · rw [setFlag_oob units j l false (by omega)]; exact h
  · rw [flagOf_setFlag_other units i j l l false (Or.inl hj)]; exact h

theorem bumpTally_idx (cfg : List LaborInfo) (l : Nat) (w : Worker) (d : Int) :
    (bumpTally cfg l w d).idx = w.idx := by
  unfold bumpTally; split <;> rfl

/-! ## Frame lemmas for the correction walks -/

theorem deficitWalk_frame (cfg : List LaborInfo) (l : Nat) :
    ∀ (ws : List Worker) (units : List DfUnit) (act : List Int) (needed : Int),
      (deficitWalk cfg l ws units act needed).2.1.length = units.length
      ∧ (∀ j, can_work (getU (deficitWalk cfg l ws units act needed).2.1 j)
          = can_work (getU units j))
      ∧ (∀ j, (getU (deficitWalk cfg l ws units act needed).2.1 j).skills
          = (getU units j).skills)
      ∧ (∀ j l', l' ≠ l →
          flagOf (deficitWalk cfg l ws units act needed).2.1 j l'
            = flagOf units j l')
      ∧ (∀ j, (∀ w ∈ ws, w.idx ≠ j) →
          flagOf (deficitWalk cfg l ws units act needed).2.1 j l
            = flagOf units j l)
      ∧ (∀ j, flagOf units j l = true →
          flagOf (deficitWalk cfg l ws units act needed).2.1 j l = true)
      ∧ ((deficitWalk cfg l ws units act needed).1.map (fun w => w.idx)
          = ws.map (fun w => w.idx))
      ∧ (deficitWalk cfg l ws units act needed).2.2.length = act.length
      ∧ (∀ l', l' ≠ l →
          getI (deficitWalk cfg l ws units act needed).2.2 l' = getI act l') := by
  intro ws
  induction ws with
  | nil =>
    intro units act needed
    exact ⟨rfl, fun j => rfl, fun j => rfl, fun j l' _ => rfl,
      fun j _ => rfl, fun j h => h, rfl, rfl, fun l' _ => rfl⟩
  | cons w ws ih =>
    intro units act needed
    by_cases hf : flagOf units w.idx l = false
    · by_cases hn : needed - 1 = 0
      · have hunf : deficitWalk cfg l (w :: ws) units act needed
            = (bumpTally cfg l w 1 :: ws, setFlag units w.idx l true,
               setI act l (getI act l + 1)) := by
          simp [deficitWalk, hf, hn]
        rw [hunf]
        refine ⟨length_setFlag units w.idx l true,
          fun j => can_work_setFlag units w.idx j l true,
          fun j => skills_setFlag units w.idx j l true,
          fun j l' h => flagOf_setFlag_other units w.idx j l l' true (Or.inr h),
          ?_, fun j h => flagOf_setFlag_true_mono units w.idx j l h,
          ?_, length_setI act l _, fun l' h => getI_setI_other act l l' _ h⟩
        · intro j hj
          exact flagOf_setFlag_other units w.idx j l l true
            (Or.inl (fun h => (hj w (List.mem_cons_self w ws)) h.symm))
        · simp [bumpTally_idx]
      · have hunf : deficitWalk cfg l (w :: ws) units act needed
            = (bumpTally cfg l w 1
                :: (deficitWalk cfg l ws (setFlag units w.idx l true)
                    (setI act l (getI act l + 1)) (needed - 1)).1,
               (deficitWalk cfg l ws (setFlag units w.idx l true)
                    (setI act l (getI act l + 1)) (needed - 1)).2.1,
               (deficitWalk cfg l ws (setFlag units w.idx l true)
                    (setI act l (getI act l + 1)) (needed - 1)).2.2) := by
          simp [deficitWalk, hf, hn]
        rw [hunf]
        obtain ⟨g1, g2, g3, g4, g5, g6, g7, g8, g9⟩ :=
          ih (setFlag units w.idx l true) (setI act l (getI act l + 1)) (needed - 1)
        refine ⟨by rw [g1, length_setFlag],
          fun j => by rw [g2 j, can_work_setFlag],
          fun j => by rw [g3 j, skills_setFlag],
          fun j l' h => by
            rw [g4 j l' h, flagOf_setFlag_other units w.idx j l l' true (Or.inr h)],
          ?_, ?_, by simp [g7, bumpTally_idx], by rw [g8, length_setI],
          fun l' h => by rw [g9 l' h, getI_setI_other act l l' _ h]⟩
        · intro j hj
          have hws : ∀ w' ∈ ws, w'.idx ≠ j := by
            intro w' hw'; exact hj w' (List.mem_cons_of_mem w hw')
          rw [g5 j hws]
          exact flagOf_setFlag_other units w.idx j l l true
            (Or.inl (fun h => (hj w (List.mem_cons_self w ws)) h.symm))
        · intro j h
          exact g6 j (flagOf_setFlag_true_mono units w.idx j l h)
    · have hunf : deficitWalk cfg l (w :: ws) units act needed
          = (w :: (deficitWalk cfg l ws units act needed).1,
             (deficitWalk cfg l ws units act needed).2.1,
             (deficitWalk cfg l ws units act needed).2.2) := by
        simp [deficitWalk, hf]
      rw [hunf]
      obtain ⟨g1, g2, g3, g4, g5, g6, g7, g8, g9⟩ := ih units act needed
      refine ⟨g1, g2, g3, g4, ?_, g6, by simp [g7], g8, g9⟩
      intro j hj
      exact g5 j (fun w' hw' => hj w' (List.mem_cons_of_mem w hw'))

theorem surplusWalk_frame (cfg : List LaborInfo) (l : Nat) :
    ∀ (ws : List Worker) (units : List DfUnit) (act : List Int)
      (remaining excess : Int),
      (surplusWalk cfg l ws units act remaining excess).2.1.length = units.length
      ∧ (∀ j, can_work (getU (surplusWalk cfg l ws units act remaining excess).2.1 j)
          = can_work (getU units j))
      ∧ (∀ j, (getU (surplusWalk cfg l ws units act remaining excess).2.1 j).skills
          = (getU units j).skills)
      ∧ (∀ j l', l' ≠ l →
          flagOf (surplusWalk cfg l ws units act remaining excess).2.1 j l'
            = flagOf units j l')
      ∧ (∀ j, (∀ w ∈ ws, w.idx ≠ j) →
          flagOf (surplusWalk cfg l ws units act remaining excess).2.1 j l
            = flagOf units j l)
      ∧ (∀ j, flagOf units j l = false →
          flagOf (surplusWalk cfg l ws units act remaining excess).2.1 j l = false)
      ∧ ((surplusWalk cfg l ws units act remaining excess).1.map (fun w => w.idx)
          = ws.map (fun w => w.idx))
      ∧ (surplusWalk cfg l ws units act remaining excess).2.2.length = act.length
      ∧ (∀ l', l' ≠ l →
          getI (surplusWalk cfg l ws units act remaining excess).2.2 l'
            = getI act l') := by
  intro ws
  induction ws with
  | nil =>
    intro units act remaining excess
    exact ⟨rfl, fun j => rfl, fun j => rfl, fun j l' _ => rfl,
      fun j _ => rfl, fun j h => h, rfl, rfl, fun l' _ => rfl⟩
  | cons w ws ih =>
    intro units act remaining excess
    by_cases hf : flagOf units w.idx l = true
    · by_cases hr : remaining ≠ 0
      · have hunf : surplusWalk cfg l (w :: ws) units act remaining excess
            = (w :: (surplusWalk cfg l ws units act (remaining - 1) excess).1,
               (surplusWalk cfg l ws units act (remaining - 1) excess).2.1,
               (surplusWalk cfg l ws units act (remaining - 1) excess).2.2) := by
          simp [surplusWalk, hf, hr]
        rw [hunf]
        obtain ⟨g1, g2, g3, g4, g5, g6, g7, g8, g9⟩ := ih units act (remaining - 1) excess
        refine ⟨g1, g2, g3, g4, ?_, g6, by simp [g7], g8, g9⟩
        intro j hj
        exact g5 j (fun w' hw' => hj w' (List.mem_cons_of_mem w hw'))
      · by_cases he : excess - 1 = 0
        · have hunf : surplusWalk cfg l (w :: ws) units act remaining excess
              = (bumpTally cfg l w (-1) :: ws, setFlag units w.idx l false,
                 setI act l (getI act l - 1)) := by
            simp [surplusWalk, hf, hr, he]
          rw [hunf]
          refine ⟨length_setFlag units w.idx l false,
            fun j => can_work_setFlag units w.idx j l false,
            fun j => skills_setFlag units w.idx j l false,
            fun j l' h => flagOf_setFlag_other units w.idx j l l' false (Or.inr h),
            ?_, fun j h => flagOf_setFlag_false_mono units w.idx j l h,
            ?_, length_setI act l _, fun l' h => getI_setI_other act l l' _ h⟩
          · intro j hj
            exact flagOf_setFlag_other units w.idx j l l false
              (Or.inl (fun h => (hj w (List.mem_cons_self w ws)) h.symm))
          · simp [bumpTally_idx]
        · have hunf : surplusWalk cfg l (w :: ws) units act remaining excess
              = (bumpTally cfg l w (-1)
                  :: (surplusWalk cfg l ws (setFlag units w.idx l false)
                      (setI act l (getI act l - 1)) remaining (excess - 1)).1,
                 (surplusWalk cfg l ws (setFlag units w.idx l false)
                      (setI act l (getI act l - 1)) remaining (excess - 1)).2.1,
                 (surplusWalk cfg l ws (setFlag units w.idx l false)
                      (setI act l (getI act l - 1)) remaining (excess - 1)).2.2) := by
            simp [surplusWalk, hf, hr, he]
          rw [hunf]
          obtain ⟨g1, g2, g3, g4, g5, g6, g7, g8, g9⟩ :=
            ih (setFlag units w.idx l false) (setI act l (getI act l - 1))
              remaining (excess - 1)
          refine ⟨by rw [g1, length_setFlag],
            fun j => by rw [g2 j, can_work_setFlag],
            fun j => by rw [g3 j, skills_setFlag],
            fun j l' h => by
              rw [g4 j l' h, flagOf_setFlag_other units w.idx j l l' false (Or.inr h)],
            ?_, ?_, by simp [g7, bumpTally_idx], by rw [g8, length_setI],
            fun l' h => by rw [g9 l' h, getI_setI_other act l l' _ h]⟩
          · intro j hj
            have hws : ∀ w' ∈ ws, w'.idx ≠ j := by
              intro w' hw'; exact hj w' (List.mem_cons_of_mem w hw')
            rw [g5 j hws]
            exact flagOf_setFlag_other units w.idx j l l false
              (Or.inl (fun h => (hj w (List.mem_cons_self w ws)) h.symm))
          · intro j h
            exact g6 j (flagOf_setFlag_false_mono units w.idx j l h)
    · have hunf : surplusWalk cfg l (w :: ws) units act remaining excess
          = (w :: (surplusWalk cfg l ws units act remaining excess).1,
             (surplusWalk cfg l ws units act remaining excess).2.1,
             (surplusWalk cfg l ws units act remaining excess).2.2) := by
        simp [surplusWalk, hf]
      rw [hunf]
      obtain ⟨g1, g2, g3, g4, g5, g6, g7, g8, g9⟩ := ih units act remaining excess
      refine ⟨g1, g2, g3, g4, ?_, g6, by simp [g7], g8, g9⟩
      intro j hj
      exact g5 j (fun w' hw' => hj w' (List.mem_cons_of_mem w hw'))

/-! ## Counter invariant and bounds through the correction walks -/

theorem deficitWalk_inv (cfg : List LaborInfo) (l : Nat) :
    ∀ (ws : List Worker) (units : List DfUnit) (act : List Int) (needed : Int),
      (∀ w ∈ ws, w.idx < units.length ∧ can_work (getU units w.idx) = true) →
      l < act.length →
      ((getI act l = eligHolders units l →
        getI (deficitWalk cfg l ws units act needed).2.2 l
          = eligHolders (deficitWalk cfg l ws units act needed).2.1 l)
      ∧ (1 ≤ needed →
        getI (deficitWalk cfg l ws units act needed).2.2 l
          ≤ getI act l + needed)) := by
  intro ws
  induction ws with
  | nil =>
    intro units act needed hmem hl
    exact ⟨fun h => h, fun h => by simp [deficitWalk]; omega⟩
  | cons w ws ih =>
    intro units act needed hmem hl
    obtain ⟨hwlt, hwcw⟩ := hmem w (List.mem_cons_self w ws)
    have hmem' : ∀ w' ∈ ws, w'.idx < units.length ∧ can_work (getU units w'.idx) = true :=
      fun w' hw' => hmem w' (List.mem_cons_of_mem w hw')
    by_cases hf : flagOf units w.idx l = false
    · have hact1 : getI (setI act l (getI act l + 1)) l = getI act l + 1 :=
        getI_setI_self act l _ hl
      have helig1 : eligHolders (setFlag units w.idx l true) l
          = eligHolders units l + 1 := by
        rw [eligHolders_setFlag_set units w.idx l true hwlt hwcw, hf]
        simp
      by_cases hn : needed - 1 = 0
      · have hunf : deficitWalk cfg l (w :: ws) units act needed
            = (bumpTally cfg l w 1 :: ws, setFlag units w.idx l true,
               setI act l (getI act l + 1)) := by
          simp [deficitWalk, hf, hn]
        rw [hunf]
        constructor
        · intro h
          dsimp only
          rw [hact1, helig1, h]
        · intro h
          dsimp only
          rw [hact1]
          omega
      · have hunf : deficitWalk cfg l (w :: ws) units act needed
            = (bumpTally cfg l w 1
                :: (deficitWalk cfg l ws (setFlag units w.idx l true)
                    (setI act l (getI act l + 1)) (needed - 1)).1,
               (deficitWalk cfg l ws (setFlag units w.idx l true)
                    (setI act l (getI act l + 1)) (needed - 1)).2.1,
               (deficitWalk cfg l ws (setFlag units w.idx l true)
                    (setI act l (getI act l + 1)) (needed - 1)).2.2) := by
          simp [deficitWalk, hf, hn]
        rw [hunf]
        have hmem1 : ∀ w' ∈ ws, w'.idx < (setFlag units w.idx l true).length
            ∧ can_work (getU (setFlag units w.idx l true) w'.idx) = true := by
          intro w' hw'
          obtain ⟨h1, h2⟩ := hmem' w' hw'
          rw [length_setFlag, can_work_setFlag]
          exact ⟨h1, h2⟩
        have hl1 : l < (setI act l (getI act l + 1)).length := by
          rw [length_setI]; exact hl
        obtain ⟨ga, gb⟩ := ih (setFlag units w.idx l true)
          (setI act l (getI act l + 1)) (needed - 1) hmem1 hl1
        constructor
        · intro h
          dsimp only
          exact ga (by rw [hact1, helig1, h])
        · intro h
          dsimp only
          have hb := gb (by omega)
          rw [hact1] at hb
          omega
    · have hf' : flagOf units w.idx l = true := by
        cases h : flagOf units w.idx l
        · exact absurd h hf
        · rfl
      have hunf : deficitWalk cfg l (w :: ws) units act needed
          = (w :: (deficitWalk cfg l ws units act needed).1,
             (deficitWalk cfg l ws units act needed).2.1,
             (deficitWalk cfg l ws units act needed).2.2) := by
        simp [deficitWalk, hf']
      rw [hunf]
      exact ih units act needed hmem' hl

theorem surplusWalk_inv (cfg : List LaborInfo) (l : Nat) :
    ∀ (ws : List Worker) (units : List DfUnit) (act : List Int)
      (remaining excess : Int),
      (∀ w ∈ ws, w.idx < units.length ∧ can_work (getU units w.idx) = true) →
      l < act.length →
      getI act l = eligHolders units l →
      getI (surplusWalk cfg l ws units act remaining excess).2.2 l
        = eligHolders (surplusWalk cfg l ws units act remaining excess).2.1 l := by
  intro ws
  induction ws with
  | nil => intro units act remaining excess hmem hl h; exact h
  | cons w ws ih =>
    intro units act remaining excess hmem hl h
    obtain ⟨hwlt, hwcw⟩ := hmem w (List.mem_cons_self w ws)
    have hmem' : ∀ w' ∈ ws, w'.idx < units.length
        ∧ can_work (getU units w'.idx) = true :=
      fun w' hw' => hmem w' (List.mem_cons_of_mem w hw')
    by_cases hf : flagOf units w.idx l = true
    · by_cases hr : remaining ≠ 0
      · have hunf : surplusWalk cfg l (w :: ws) units act remaining excess
            = (w :: (surplusWalk cfg l ws units act (remaining - 1) excess).1,
               (surplusWalk cfg l ws units act (remaining - 1) excess).2.1,
               (surplusWalk cfg l ws units act (remaining - 1) excess).2.2) := by
          simp [surplusWalk, hf, hr]
        rw [hunf]
        exact ih units act (remaining - 1) excess hmem' hl h
      · have hact1 : getI (setI act l (getI act l - 1)) l = getI act l - 1 :=
          getI_setI_self act l _ hl
        have helig1 : eligHolders (setFlag units w.idx l false) l
            = eligHolders units l - 1 := by
          rw [eligHolders_setFlag_set units w.idx l false hwlt hwcw, hf]
          simp
        by_cases he : excess - 1 = 0
        · have hunf : surplusWalk cfg l (w :: ws) units act remaining excess
              = (bumpTally cfg l w (-1) :: ws, setFlag units w.idx l false,
                 setI act l (getI act l - 1)) := by
            simp [surplusWalk, hf, hr, he]
          rw [hunf]
          dsimp only
          rw [hact1, helig1, h]
        · have hunf : surplusWalk cfg l (w :: ws) units act remaining excess
              = (bumpTally cfg l w (-1)
                  :: (surplusWalk cfg l ws (setFlag units w.idx l false)
                      (setI act l (getI act l - 1)) remaining (excess - 1)).1,
                 (surplusWalk cfg l ws (setFlag units w.idx l false)
                      (setI act l (getI act l - 1)) remaining (excess - 1)).2.1,
                 (surplusWalk cfg l ws (setFlag units w.idx l false)
                      (setI act l (getI act l - 1)) remaining (excess - 1)).2.2) := by
            simp [surplusWalk, hf, hr, he]
          rw [hunf]
          have hmem1 : ∀ w' ∈ ws, w'.idx < (setFlag units w.idx l false).length
              ∧ can_work (getU (setFlag units w.idx l false) w'.idx) = true := by
            intro w' hw'
            obtain ⟨h1, h2⟩ := hmem' w' hw'
            rw [length_setFlag, can_work_setFlag]
            exact ⟨h1, h2⟩
          have hl1 : l < (setI act l (getI act l - 1)).length := by
            rw [length_setI]; exact hl
          exact ih (setFlag units w.idx l false) (setI act l (getI act l - 1))
            remaining (excess - 1) hmem1 hl1 (by rw [hact1, helig1, h])
    · have hf' : flagOf units w.idx l = false := by
        cases h' : flagOf units w.idx l
        · rfl
        · exact absurd h' hf
      have hunf : surplusWalk cfg l (w :: ws) units act remaining excess
          = (w :: (surplusWalk cfg l ws units act remaining excess).1,
             (surplusWalk cfg l ws units act remaining excess).2.1,
             (surplusWalk cfg l ws units act remaining excess).2.2) := by
        simp [surplusWalk, hf']
      rw [hunf]
      exact ih units act remaining excess hmem' hl h

theorem surplusWalk_count (cfg : List LaborInfo) (l : Nat) :
    ∀ (ws : List Worker) (units : List DfUnit) (act : List Int)
      (remaining excess : Int),
      (∀ w ∈ ws, w.idx < units.length) →
      ((ws.map (fun w => w.idx)).Nodup) →
      l < act.length →
      ((countH ws units l : Int) = remaining + excess) →
      0 ≤ remaining → 1 ≤ excess →
      getI (surplusWalk cfg l ws units act remaining excess).2.2 l
        = getI act l - excess := by
  intro ws
  induction ws with
  | nil =>
    intro units act remaining excess hmem hnd hl hcnt hr he
    simp only [countH, List.countP_nil] at hcnt
    simp only [surplusWalk]
    omega
  | cons w ws ih =>
    intro units act remaining excess hmem hnd hl hcnt hr he
    have hmem' : ∀ w' ∈ ws, w'.idx < units.length :=
      fun w' hw' => hmem w' (List.mem_cons_of_mem w hw')
    rw [List.map_cons, List.nodup_cons] at hnd
    obtain ⟨hnin, hnd'⟩ := hnd
    by_cases hf : flagOf units w.idx l = true
    · have hcnt' : (countH ws units l : Int) = (remaining + excess) - 1 := by
        simp only [countH, List.countP_cons, hf] at hcnt ⊢
        push_cast at hcnt ⊢
        omega
      by_cases hr' : remaining ≠ 0
      · have hunf : surplusWalk cfg l (w :: ws) units act remaining excess
            = (w :: (surplusWalk cfg l ws units act (remaining - 1) excess).1,
               (surplusWalk cfg l ws units act (remaining - 1) excess).2.1,
               (surplusWalk cfg l ws units act (remaining - 1) excess).2.2) := by
          simp [surplusWalk, hf, hr']
        rw [hunf]
        exact ih units act (remaining - 1) excess hmem' hnd' hl
          (by omega) (by omega) he
      · have hact1 : getI (setI act l (getI act l - 1)) l = getI act l - 1 :=
          getI_setI_self act l _ hl
        by_cases he' : excess - 1 = 0
        · have hunf : surplusWalk cfg l (w :: ws) units act remaining excess
              = (bumpTally cfg l w (-1) :: ws, setFlag units w.idx l false,
                 setI act l (getI act l - 1)) := by
            simp [surplusWalk, hf, hr', he']
          rw [hunf]
          simp only [hact1]
          omega
        · have hunf : surplusWalk cfg l (w :: ws) units act remaining excess
              = (bumpTally cfg l w (-1)
                  :: (surplusWalk cfg l ws (setFlag units w.idx l false)
                      (setI act l (getI act l - 1)) remaining (excess - 1)).1,
                 (surplusWalk cfg l ws (setFlag units w.idx l false)
                      (setI act l (getI act l - 1)) remaining (excess - 1)).2.1,
                 (surplusWalk cfg l ws (setFlag units w.idx l false)
                      (setI act l (getI act l - 1)) remaining (excess - 1)).2.2) := by
            simp [surplusWalk, hf, hr', he']
          rw [hunf]
          have hmem1 : ∀ w' ∈ ws, w'.idx < (setFlag units w.idx l false).length := by
            intro w' hw'
            rw [length_setFlag]
            exact hmem' w' hw'
          have hl1 : l < (setI act l (getI act l - 1)).length := by
            rw [length_setI]; exact hl
          have hcntk : (countH ws (setFlag units w.idx l false) l : Int)
              = remaining + (excess - 1) := by
            have hcg : countH ws (setFlag units w.idx l false) l
                = countH ws units l := by
              refine countH_congr ws _ units l ?_
              intro w' hw'
              refine flagOf_setFlag_other units w.idx w'.idx l l false (Or.inl ?_)
              intro hcontra
              exact hnin (by rw [← hcontra]; exact List.mem_map_of_mem _ hw')
            rw [hcg]
            omega
          have := ih (setFlag units w.idx l false) (setI act l (getI act l - 1))
            remaining (excess - 1) hmem1 hnd' hl1 hcntk hr (by omega)
          rw [this, hact1]
          omega
    · have hf' : flagOf units w.idx l = false := by
        cases h' : flagOf units w.idx l
        · rfl
        · exact absurd h' hf
      have hcnt' : (countH ws units l : Int) = remaining + excess := by
        simp only [countH, List.countP_cons, hf'] at hcnt ⊢
        push_cast at hcnt ⊢
        omega
      have hunf : surplusWalk cfg l (w :: ws) units act remaining excess
          = (w :: (surplusWalk cfg l ws units act remaining excess).1,
             (surplusWalk cfg l ws units act remaining excess).2.1,
             (surplusWalk cfg l ws units act remaining excess).2.2) := by
        simp [surplusWalk, hf']
      rw [hunf]
      exact ih units act remaining excess hmem' hnd' hl hcnt' hr he


/-- Positional characterization of the surplus walk: a worker keeps the
labor exactly when it held it and fewer than remaining holders occur
strictly before it in the walk order; every holder ranked beyond that
quota is disabled, and non-holders are unchanged and consume no quota. -/
theorem surplusWalk_char (cfg : List LaborInfo) (l : Nat) :
    ∀ (ws : List Worker) (units : List DfUnit) (act : List Int)
      (remaining excess : Int),
      (∀ w ∈ ws, w.idx < units.length) →
      ((ws.map (fun w => w.idx)).Nodup) →
      0 ≤ remaining →
      ((countH ws units l : Int) = remaining + excess) →
      1 ≤ excess →
      ∀ k, (hk : k < ws.length) →
        flagOf (surplusWalk cfg l ws units act remaining excess).2.1
            (ws.get ⟨k, hk⟩).idx l
          = (flagOf units (ws.get ⟨k, hk⟩).idx l
              && decide ((countH (ws.take k) units l : Int) < remaining)) := by
  intro ws
  induction ws with
  | nil => intro units act remaining excess _ _ _ _ _ k hk; simp at hk
  | cons w ws ih =>
    intro units act remaining excess hmem hnd hr hcnt he k hk
    have hwlt : w.idx < units.length := hmem w (List.mem_cons_self w ws)
    have hmem' : ∀ w' ∈ ws, w'.idx < units.length :=
      fun w' hw' => hmem w' (List.mem_cons_of_mem w hw')
    rw [List.map_cons, List.nodup_cons] at hnd
    obtain ⟨hnin, hnd'⟩ := hnd
    have hninidx : ∀ w' ∈ ws, w'.idx ≠ w.idx := by
      intro w' hw' hcontra
      exact hnin (by rw [← hcontra]; exact List.mem_map_of_mem _ hw')
    have htake0 : countH ((w :: ws).take 0) units l = 0 := by
      simp [countH]
    by_cases hf : flagOf units w.idx l = true
    · have hcnt' : (countH ws units l : Int) = (remaining + excess) - 1 := by
        simp only [countH, List.countP_cons, hf] at hcnt ⊢
        push_cast at hcnt ⊢
        omega
      have htakeS : ∀ k', countH ((w :: ws).take (k' + 1)) units l
          = countH (ws.take k') units l + 1 := by
        intro k'
        rw [List.take_succ_cons, countH, List.countP_cons, hf]
        rfl
      by_cases hr' : remaining ≠ 0
      · have hunf : surplusWalk cfg l (w :: ws) units act remaining excess
            = (w :: (surplusWalk cfg l ws units act (remaining - 1) excess).1,
               (surplusWalk cfg l ws units act (remaining - 1) excess).2.1,
               (surplusWalk cfg l ws units act (remaining - 1) excess).2.2) := by
          simp [surplusWalk, hf, hr']
        rw [hunf]
        dsimp only
        obtain ⟨_, _, _, _, g5, _, _, _, _⟩ :=
          surplusWalk_frame cfg l ws units act (remaining - 1) excess
        cases k with
        | zero =>
          rw [show ((w :: ws).get ⟨0, hk⟩) = w from rfl]
          rw [g5 w.idx hninidx, hf, htake0]
          have h0 : (0 : Int) < remaining := by omega
          simp [h0]
        | succ k' =>
          have hk' : k' < ws.length := by simpa using Nat.lt_of_succ_lt_succ hk
          have hIH := ih units act (remaining - 1) excess hmem' hnd' (by omega)
            (by omega) he k' hk'
          rw [show ((w :: ws).get ⟨k' + 1, hk⟩) = ws.get ⟨k', hk'⟩ from rfl]
          rw [hIH, htakeS k']
          congr 1
          rw [decide_eq_decide]
          push_cast
          omega
      · have hrem0 : remaining = 0 := by omega
        have hdec0 : ∀ c : Nat, decide ((c : Int) < (0 : Int)) = false := by
          intro c
          simp
        by_cases he' : excess - 1 = 0
        · have hunf : surplusWalk cfg l (w :: ws) units act remaining excess
              = (bumpTally cfg l w (-1) :: ws, setFlag units w.idx l false,
                 setI act l (getI act l - 1)) := by
            simp [surplusWalk, hf, hr', he']
          rw [hunf]
          dsimp only
          have htail0 : countH ws units l = 0 := by omega
          have htailflags : ∀ w' ∈ ws, flagOf units w'.idx l = false := by
            intro w' hw'
            have := List.countP_eq_zero.mp htail0 w' hw'
            cases h' : flagOf units w'.idx l
            · rfl
            · exact absurd h' this
          cases k with
          | zero =>
            rw [show ((w :: ws).get ⟨0, hk⟩) = w from rfl]
            rw [flagOf_setFlag_self units w.idx l false hwlt, hf, htake0, hrem0,
              hdec0 0]
            simp
          | succ k' =>
            have hk' : k' < ws.length := by simpa using Nat.lt_of_succ_lt_succ hk
            rw [show ((w :: ws).get ⟨k' + 1, hk⟩) = ws.get ⟨k', hk'⟩ from rfl]
            have hmm : ws.get ⟨k', hk'⟩ ∈ ws := List.get_mem ws k' hk'
            have hflag : flagOf (setFlag units w.idx l false) (ws.get ⟨k', hk'⟩).idx l
                = flagOf units (ws.get ⟨k', hk'⟩).idx l := by
              exact flagOf_setFlag_other units w.idx _ l l false
                (Or.inl (hninidx _ hmm))
            rw [hflag, htailflags _ hmm]
            simp
        · have hunf : surplusWalk cfg l (w :: ws) units act remaining excess
              = (bumpTally cfg l w (-1)
                  :: (surplusWalk cfg l ws (setFlag units w.idx l false)
                      (setI act l (getI act l - 1)) remaining (excess - 1)).1,
                 (surplusWalk cfg l ws (setFlag units w.idx l false)
                      (setI act l (getI act l - 1)) remaining (excess - 1)).2.1,
                 (surplusWalk cfg l ws (setFlag units w.idx l false)
                      (setI act l (getI act l - 1)) remaining (excess - 1)).2.2) := by
            simp [surplusWalk, hf, hr', he']
          rw [hunf]
          dsimp only
          have hmem1 : ∀ w' ∈ ws, w'.idx < (setFlag units w.idx l false).length := by
            intro w' hw'
            rw [length_setFlag]
            exact hmem' w' hw'
          have hcong : countH ws (setFlag units w.idx l false) l
              = countH ws units l := by
            refine countH_congr ws _ units l ?_
            intro w' hw'
            exact flagOf_setFlag_other units w.idx w'.idx l l false
              (Or.inl (hninidx w' hw'))
          obtain ⟨_, _, _, _, g5, _, _, _, _⟩ :=
            surplusWalk_frame cfg l ws (setFlag units w.idx l false)
              (setI act l (getI act l - 1)) remaining (excess - 1)
          cases k with
          | zero =>
            rw [show ((w :: ws).get ⟨0, hk⟩) = w from rfl]
            rw [g5 w.idx hninidx, flagOf_setFlag_self units w.idx l false hwlt,
              hf, htake0, hrem0, hdec0 0]
            simp
          | succ k' =>
            have hk' : k' < ws.length := by simpa using Nat.lt_of_succ_lt_succ hk
            have hIH := ih (setFlag units w.idx l false) (setI act l (getI act l - 1))
              remaining (excess - 1) hmem1 hnd' hr
              (by rw [hcong]; omega) (by omega) k' hk'
            rw [show ((w :: ws).get ⟨k' + 1, hk⟩) = ws.get ⟨k', hk'⟩ from rfl]
            rw [hIH, hrem0, hdec0 (countH (ws.take k') (setFlag units w.idx l false) l),
              hdec0 (countH ((w :: ws).take (k' + 1)) units l)]
            simp
    · have hf' : flagOf units w.idx l = false := by
        cases h' : flagOf units w.idx l
        · rfl
        · exact absurd h' hf
      have hcnt' : (countH ws units l : Int) = remaining + excess := by
        simp only [countH, List.countP_cons, hf'] at hcnt ⊢
        push_cast at hcnt ⊢
        omega
      have htakeS : ∀ k', countH ((w :: ws).take (k' + 1)) units l
          = countH (ws.take k') units l := by
        intro k'
        rw [List.take_succ_cons, countH, List.countP_cons, hf']
        rfl
      have hunf : surplusWalk cfg l (w :: ws) units act remaining excess
          = (w :: (surplusWalk cfg l ws units act remaining excess).1,
             (surplusWalk cfg l ws units act remaining excess).2.1,
             (surplusWalk cfg l ws units act remaining excess).2.2) := by
        simp [surplusWalk, hf']
      rw [hunf]
      dsimp only
      obtain ⟨_, _, _, _, g5, _, _, _, _⟩ :=
        surplusWalk_frame cfg l ws units act remaining excess
      cases k with
      | zero =>
        rw [show ((w :: ws).get ⟨0, hk⟩) = w from rfl]
        rw [g5 w.idx hninidx, hf']
        simp
      | succ k' =>
        have hk' : k' < ws.length := by simpa using Nat.lt_of_succ_lt_succ hk
        have hIH := ih units act remaining excess hmem' hnd' hr hcnt' he k' hk'
        rw [show ((w :: ws).get ⟨k' + 1, hk⟩) = ws.get ⟨k', hk'⟩ from rfl]
        rw [hIH, htakeS k']

/-! ## The eligible index set and its preservation -/

/-- Indices of the eligible units, in increasing order. -/
def eligIdx (units : List DfUnit) : List Nat :=
  (List.range units.length).filter (fun i => can_work (getU units i))

theorem eligIdx_nodup (units : List DfUnit) : (eligIdx units).Nodup :=
  (List.nodup_range _).filter _

theorem eligIdx_congr (units1 units2 : List DfUnit)
    (hlen : units1.length = units2.length)
    (hcw : ∀ j, can_work (getU units1 j) = can_work (getU units2 j)) :
    eligIdx units1 = eligIdx units2 := by
  unfold eligIdx
  rw [hlen]
  refine List.filter_congr ?_
  intro i _
  rw [hcw i]

/-- When the workers cover exactly the eligible indices, the holder
count over the workers equals the eligible-holder count. -/
theorem cover_countH (ws : List Worker) (units : List DfUnit) (l : Nat)
    (h : (ws.map (fun w => w.idx)).Perm (eligIdx units)) :
    (countH ws units l : Int) = eligHolders units l := by
  unfold countH
  have h1 : ws.countP (fun w => flagOf units w.idx l)
      = (ws.map (fun w => w.idx)).countP (fun i => flagOf units i l) := by
    rw [List.countP_map]; rfl
  rw [h1, h.countP_eq]
  unfold eligIdx
  rw [List.countP_filter]
  unfold eligHolders
  rw [countP_getU (fun u => can_work u && u.labors l) units]
  have hpq : (List.range units.length).countP
      (fun a => flagOf units a l && can_work (getU units a))
      = (List.range units.length).countP
        (fun i => can_work (getU units i) && (getU units i).labors l) := by
    refine List.countP_congr ?_
    intro i _
    unfold flagOf
    constructor
    · intro hh
      rw [Bool.and_eq_true] at hh ⊢
      exact ⟨hh.2, hh.1⟩
    · intro hh
      rw [Bool.and_eq_true] at hh ⊢
      exact ⟨hh.2, hh.1⟩
  rw [hpq]

theorem tallyStep_idx (cfg : List LaborInfo) (u : DfUnit)
    (p : List Int × Worker) (l : Nat) : ((tallyStep cfg u p l).2).idx = p.2.idx := by
  unfold tallyStep
  by_cases h : u.labors l = true
  · by_cases h2 : (cfgAt cfg l).skill.isNone = true
    · by_cases h3 : (cfgAt cfg l).uniformed = true <;> simp [h, h2, h3]
    · by_cases h3 : (cfgAt cfg l).uniformed = true <;> simp [h, h2, h3]
  · simp [h]

theorem tallyGo_idx (cfg : List LaborInfo) (u : DfUnit) (i : Nat)
    (act : List Int) : ∀ n, (tallyGo cfg u i act n).2.idx = i := by
  intro n
  induction n with
  | zero => rfl
  | succ m ih =>
    have hstep : tallyGo cfg u i act (m + 1)
        = tallyStep cfg u (tallyGo cfg u i act m) m := by
      unfold tallyGo
      rw [List.range_succ, List.foldl_append, List.foldl_cons, List.foldl_nil]
    rw [hstep, tallyStep_idx]
    exact ih

theorem tallyWorker_idx (cfg : List LaborInfo) (u : DfUnit) (i : Nat)
    (act : List Int) : (tallyWorker cfg u i act).2.idx = i :=
  tallyGo_idx cfg u i act cfg.length

theorem buildGo_idx (cfg : List LaborInfo) (units : List DfUnit) :
    ∀ (us : List DfUnit) (i : Nat) (act : List Int),
      (∀ j, getU units (i + j) = getU us j) →
      (buildGo cfg us i act).2.map (fun w => w.idx)
        = ((List.range us.length).map (fun j => i + j)).filter
            (fun k => can_work (getU units k)) := by
  intro us
  induction us with
  | nil => intro i act _; simp [buildGo]
  | cons u us' ih =>
    intro i act hsuf
    have hgetu : getU units i = u := by simpa using hsuf 0
    have hsuf' : ∀ j, getU units (i + 1 + j) = getU us' j := by
      intro j
      have := hsuf (j + 1)
      have harith : i + (j + 1) = i + 1 + j := by omega
      rw [harith] at this
      simpa [getU] using this
    have hrangemap : (List.range (u :: us').length).map (fun j => i + j)
        = i :: (List.range us'.length).map (fun j => i + 1 + j) := by
      rw [List.length_cons, List.range_succ_eq_map, List.map_cons, List.map_map]
      congr 1
      refine List.map_congr_left ?_
      intro j _
      simp [Function.comp]
      omega
    rw [hrangemap, List.filter_cons]
    by_cases hcw : can_work u = true
    · have hunf : buildGo cfg (u :: us') i act
          = ((buildGo cfg us' (i + 1) (tallyWorker cfg u i act).1).1,
             (tallyWorker cfg u i act).2
               :: (buildGo cfg us' (i + 1) (tallyWorker cfg u i act).1).2) := by
        simp [buildGo, hcw]
      rw [hunf]
      have hcond : can_work (getU units i) = true := by rw [hgetu]; exact hcw
      rw [List.map_cons, tallyWorker_idx, hcond]
      simp only [if_true]
      rw [ih (i + 1) (tallyWorker cfg u i act).1 hsuf']
    · have hcw' : can_work u = false := by
        cases h : can_work u
        · rfl
        · exact absurd h hcw
      have hunf : buildGo cfg (u :: us') i act = buildGo cfg us' (i + 1) act := by
        simp [buildGo, hcw']
      have hcond : can_work (getU units i) = false := by rw [hgetu]; exact hcw'
      rw [hunf, hcond]
      simp only [Bool.false_eq_true, if_false]
      rw [ih (i + 1) act hsuf']

/-- The recount's workers list indexes exactly the eligible units, in
increasing order. -/
theorem buildWorkers_idx (cfg : List LaborInfo) (units : List DfUnit) :
    (buildWorkers cfg units).2.map (fun w => w.idx) = eligIdx units := by
  have h := buildGo_idx cfg units units 0 (List.replicate cfg.length 0)
    (by intro j; simp)
  unfold buildWorkers eligIdx
  rw [h]
  congr 1
  simp

/-- Everything the correction loop preserves and guarantees at one
labor: the counter invariant, worker coverage, frame facts for other
labors, the post-step bound on the processed labor, and that no flag
of a within-cap labor is cleared. -/
theorem laborStep_spec (cfg : List LaborInfo) (st : PassSt) (l : Nat)
    (hlenA : st.active.length = cfg.length)
    (hcount : ∀ l', l' < cfg.length → getI st.active l' = eligHolders st.units l')
    (hwmem : ∀ w ∈ st.workers,
      w.idx < st.units.length ∧ can_work (getU st.units w.idx) = true)
    (hnd : (st.workers.map (fun w => w.idx)).Nodup)
    (hcover : (st.workers.map (fun w => w.idx)).Perm (eligIdx st.units))
    (hl : l < cfg.length) :
    ((laborStep cfg st l).active.length = cfg.length)
    ∧ (∀ l', l' < cfg.length →
        getI (laborStep cfg st l).active l'
          = eligHolders (laborStep cfg st l).units l')
    ∧ (∀ w ∈ (laborStep cfg st l).workers,
        w.idx < (laborStep cfg st l).units.length
        ∧ can_work (getU (laborStep cfg st l).units w.idx) = true)
    ∧ (((laborStep cfg st l).workers.map (fun w => w.idx)).Nodup)
    ∧ (((laborStep cfg st l).workers.map (fun w => w.idx)).Perm
        (eligIdx (laborStep cfg st l).units))
    ∧ ((laborStep cfg st l).units.length = st.units.length)
    ∧ (∀ j, can_work (getU (laborStep cfg st l).units j)
        = can_work (getU st.units j))
    ∧ (∀ j l', l' ≠ l →
        flagOf (laborStep cfg st l).units j l' = flagOf st.units j l')
    ∧ (∀ l', l' ≠ l → getI (laborStep cfg st l).active l' = getI st.active l')
    ∧ ((cfgAt cfg l).minimum ≤ (cfgAt cfg l).maximum →
        0 ≤ (cfgAt cfg l).maximum →
        getI (laborStep cfg st l).active l ≤ (cfgAt cfg l).maximum)
    ∧ (getI st.active l ≤ (cfgAt cfg l).maximum →
        ∀ j, flagOf st.units j l = true →
          flagOf (laborStep cfg st l).units j l = true) := by
  have hlact : l < st.active.length := by rw [hlenA]; exact hl
  have hwsmem : ∀ w' ∈ sortUnitsBySkill st.units st.workers (cfgAt cfg l).skill,
      w'.idx < st.units.length ∧ can_work (getU st.units w'.idx) = true := by
    intro w' hw'
    obtain ⟨w, hw, heq, _⟩ :=
      sortUnits_mem st.units st.workers (cfgAt cfg l).skill w' hw'
    rw [heq]
    exact hwmem w hw
  have hwsnd := sortUnits_nodup st.units st.workers (cfgAt cfg l).skill hnd
  have hwsperm := sortUnits_idx_perm st.units st.workers (cfgAt cfg l).skill
  have hwscount := sortUnits_countH st.units st.units st.workers (cfgAt cfg l).skill l
  by_cases hdef : getI st.active l < (cfgAt cfg l).minimum
  · have hunf : laborStep cfg st l
        = ⟨(deficitWalk cfg l
              (sortUnitsBySkill st.units st.workers (cfgAt cfg l).skill)
              st.units st.active ((cfgAt cfg l).minimum - getI st.active l)).2.2,
           (deficitWalk cfg l
              (sortUnitsBySkill st.units st.workers (cfgAt cfg l).skill)
              st.units st.active ((cfgAt cfg l).minimum - getI st.active l)).1,
           (deficitWalk cfg l
              (sortUnitsBySkill st.units st.workers (cfgAt cfg l).skill)
              st.units st.active ((cfgAt cfg l).minimum - getI st.active l)).2.1⟩ := by
      simp [laborStep, hdef]
    obtain ⟨f1, f2, f3, f4, f5, f6, f7, f8, f9⟩ :=
      deficitWalk_frame cfg l
        (sortUnitsBySkill st.units st.workers (cfgAt cfg l).skill)
        st.units st.active ((cfgAt cfg l).minimum - getI st.active l)
    obtain ⟨dinv, dbnd⟩ :=
      deficitWalk_inv cfg l
        (sortUnitsBySkill st.units st.workers (cfgAt cfg l).skill)
        st.units st.active ((cfgAt cfg l).minimum - getI st.active l)
        hwsmem hlact
    have heligc : ∀ l', l' ≠ l →
        eligHolders (deficitWalk cfg l
          (sortUnitsBySkill st.units st.workers (cfgAt cfg l).skill)
          st.units st.active ((cfgAt cfg l).minimum - getI st.active l)).2.1 l'
        = eligHolders st.units l' := by
      intro l' hne
      exact eligHolders_congr _ _ l' f1 f2 (fun j => f4 j l' hne)
    rw [hunf]
    dsimp only
    refine ⟨by rw [f8]; exact hlenA, ?_, ?_, ?_, ?_, f1, f2,
      fun j l' h => f4 j l' h, fun l' h => f9 l' h, ?_, ?_⟩
    · intro l' hl'
      by_cases hll : l' = l
      · subst hll
        exact dinv (hcount l' hl')
      · rw [f9 l' hll, heligc l' hll]
        exact hcount l' hl'
    · intro w' hw'
      have hin : w'.idx ∈ (deficitWalk cfg l
          (sortUnitsBySkill st.units st.workers (cfgAt cfg l).skill)
          st.units st.active ((cfgAt cfg l).minimum - getI st.active l)).1.map
            (fun w => w.idx) :=
        List.mem_map_of_mem _ hw'
      rw [f7] at hin
      obtain ⟨w'', hw'', heq⟩ := List.mem_map.mp hin
      obtain ⟨hb1, hb2⟩ := hwsmem w'' hw''
      rw [← heq]
      constructor
      · rw [f1]; exact hb1
      · rw [f2]; exact hb2
    · rw [f7]; exact hwsnd
    · rw [f7]
      have hEq : eligIdx (deficitWalk cfg l
          (sortUnitsBySkill st.units st.workers (cfgAt cfg l).skill)
          st.units st.active ((cfgAt cfg l).minimum - getI st.active l)).2.1
          = eligIdx st.units :=
        eligIdx_congr _ _ f1 f2
      rw [hEq]
      exact hwsperm.trans hcover
    · intro hmin hmax
      have hb := dbnd (by omega)
      omega
    · intro _ j hflag
      exact f6 j hflag
  · by_cases hsur : getI st.active l > (cfgAt cfg l).maximum
    · have hunf : laborStep cfg st l
          = ⟨(surplusWalk cfg l
                (sortUnitsBySkill st.units st.workers (cfgAt cfg l).skill)
                st.units st.active (cfgAt cfg l).maximum
                (getI st.active l - (cfgAt cfg l).maximum)).2.2,
             (surplusWalk cfg l
                (sortUnitsBySkill st.units st.workers (cfgAt cfg l).skill)
                st.units st.active (cfgAt cfg l).maximum
                (getI st.active l - (cfgAt cfg l).maximum)).1,
             (surplusWalk cfg l
                (sortUnitsBySkill st.units st.workers (cfgAt cfg l).skill)
                st.units st.active (cfgAt cfg l).maximum
                (getI st.active l - (cfgAt cfg l).maximum)).2.1⟩ := by
        simp [laborStep, hdef, hsur]
      obtain ⟨f1, f2, f3, f4, f5, f6, f7, f8, f9⟩ :=
        surplusWalk_frame cfg l
          (sortUnitsBySkill st.units st.workers (cfgAt cfg l).skill)
          st.units st.active (cfgAt cfg l).maximum
          (getI st.active l - (cfgAt cfg l).maximum)
      have sinv :=
        surplusWalk_inv cfg l
          (sortUnitsBySkill st.units st.workers (cfgAt cfg l).skill)
          st.units st.active (cfgAt cfg l).maximum
          (getI st.active l - (cfgAt cfg l).maximum)
          hwsmem hlact (hcount l hl)
      have heligc : ∀ l', l' ≠ l →
          eligHolders (surplusWalk cfg l
            (sortUnitsBySkill st.units st.workers (cfgAt cfg l).skill)
            st.units st.active (cfgAt cfg l).maximum
            (getI st.active l - (cfgAt cfg l).maximum)).2.1 l'
          = eligHolders st.units l' := by
        intro l' hne
        exact eligHolders_congr _ _ l' f1 f2 (fun j => f4 j l' hne)
      rw [hunf]
      dsimp only
      refine ⟨by rw [f8]; exact hlenA, ?_, ?_, ?_, ?_, f1, f2,
        fun j l' h => f4 j l' h, fun l' h => f9 l' h, ?_, ?_⟩
      · intro l' hl'
        by_cases hll : l' = l
        · subst hll
          exact sinv
        · rw [f9 l' hll, heligc l' hll]
          exact hcount l' hl'
      · intro w' hw'
        have hin : w'.idx ∈ (surplusWalk cfg l
            (sortUnitsBySkill st.units st.workers (cfgAt cfg l).skill)
            st.units st.active (cfgAt cfg l).maximum
            (getI st.active l - (cfgAt cfg l).maximum)).1.map (fun w => w.idx) :=
          List.mem_map_of_mem _ hw'
        rw [f7] at hin
        obtain ⟨w'', hw'', heq⟩ := List.mem_map.mp hin
        obtain ⟨hb1, hb2⟩ := hwsmem w'' hw''
        rw [← heq]
        constructor
        · rw [f1]; exact hb1
        · rw [f2]; exact hb2
      · rw [f7]; exact hwsnd
      · rw [f7]
        have hEq : eligIdx (surplusWalk cfg l
            (sortUnitsBySkill st.units st.workers (cfgAt cfg l).skill)
            st.units st.active (cfgAt cfg l).maximum
            (getI st.active l - (cfgAt cfg l).maximum)).2.1
            = eligIdx st.units :=
          eligIdx_congr _ _ f1 f2
        rw [hEq]
        exact hwsperm.trans hcover
      · intro hmin hmax
        have hcH : (countH
            (sortUnitsBySkill st.units st.workers (cfgAt cfg l).skill)
            st.units l : Int)
            = (cfgAt cfg l).maximum + (getI st.active l - (cfgAt cfg l).maximum) := by
          rw [hwscount, cover_countH st.workers st.units l hcover, ← hcount l hl]
          omega
        have hsc := surplusWalk_count cfg l
          (sortUnitsBySkill st.units st.workers (cfgAt cfg l).skill)
          st.units st.active (cfgAt cfg l).maximum
          (getI st.active l - (cfgAt cfg l).maximum)
          (fun w' hw' => (hwsmem w' hw').1) hwsnd hlact hcH hmax (by omega)
        omega
      · intro hcap
        omega
    · have hunf : laborStep cfg st l = st := by
        simp [laborStep, hdef, hsur]
      rw [hunf]
      refine ⟨hlenA, hcount, hwmem, hnd, hcover, rfl, fun j => rfl,
        fun j l' _ => rfl, fun l' _ => rfl, ?_, fun _ j h => h⟩
      intro _ _
      omega

/-- The correction loop truncated after the first n labors. -/
def loopTo (cfg : List LaborInfo) (st0 : PassSt) (n : Nat) : PassSt :=
  (List.range n).foldl (laborStep cfg) st0

theorem loopTo_succ (cfg : List LaborInfo) (st0 : PassSt) (n : Nat) :
    loopTo cfg st0 (n + 1) = laborStep cfg (loopTo cfg st0 n) n := by
  unfold loopTo
  rw [List.range_succ, List.foldl_append, List.foldl_cons, List.foldl_nil]

theorem correctionsStage_eq_loopTo (cfg : List LaborInfo) (units : List DfUnit) :
    correctionsStage cfg units
      = loopTo cfg
          ⟨(buildWorkers cfg units).1, (buildWorkers cfg units).2, units⟩
          cfg.length := rfl

/-- Master induction over the correction loop: the counter invariant
is maintained, unprocessed labors are untouched, processed labors end
within their maximum, and no within-cap labor loses a flag. -/
theorem loopTo_spec (cfg : List LaborInfo) (st0 : PassSt)
    (hlenA : st0.active.length = cfg.length)
    (hcount : ∀ l', l' < cfg.length →
      getI st0.active l' = eligHolders st0.units l')
    (hwmem : ∀ w ∈ st0.workers,
      w.idx < st0.units.length ∧ can_work (getU st0.units w.idx) = true)
    (hnd : (st0.workers.map (fun w => w.idx)).Nodup)
    (hcover : (st0.workers.map (fun w => w.idx)).Perm (eligIdx st0.units)) :
    ∀ n, n ≤ cfg.length →
      (loopTo cfg st0 n).active.length = cfg.length
      ∧ (∀ l', l' < cfg.length →
          getI (loopTo cfg st0 n).active l'
            = eligHolders (loopTo cfg st0 n).units l')
      ∧ (∀ w ∈ (loopTo cfg st0 n).workers,
          w.idx < (loopTo cfg st0 n).units.length
          ∧ can_work (getU (loopTo cfg st0 n).units w.idx) = true)
      ∧ (((loopTo cfg st0 n).workers.map (fun w => w.idx)).Nodup)
      ∧ (((loopTo cfg st0 n).workers.map (fun w => w.idx)).Perm
          (eligIdx (loopTo cfg st0 n).units))
      ∧ (loopTo cfg st0 n).units.length = st0.units.length
      ∧ (∀ j, can_work (getU (loopTo cfg st0 n).units j)
          = can_work (getU st0.units j))
      ∧ (∀ l, n ≤ l → ∀ j, flagOf (loopTo cfg st0 n).units j l
          = flagOf st0.units j l)
      ∧ (∀ l, n ≤ l → getI (loopTo cfg st0 n).active l = getI st0.active l)
      ∧ (∀ l, l < n → (cfgAt cfg l).minimum ≤ (cfgAt cfg l).maximum →
          0 ≤ (cfgAt cfg l).maximum →
          getI (loopTo cfg st0 n).active l ≤ (cfgAt cfg l).maximum)
      ∧ (∀ l j, l < cfg.length →
          eligHolders st0.units l ≤ (cfgAt cfg l).maximum →
          flagOf st0.units j l = true →
          flagOf (loopTo cfg st0 n).units j l = true) := by
  intro n
  induction n with
  | zero =>
    intro _
    exact ⟨hlenA, hcount, hwmem, hnd, hcover, rfl, fun j => rfl,
      fun l _ j => rfl, fun l _ => rfl, fun l hl => absurd hl (by omega),
      fun l j _ _ h => h⟩
  | succ m ih =>
    intro hm
    have hm' : m ≤ cfg.length := by omega
    have hmlt : m < cfg.length := by omega
    obtain ⟨g1, g2, g3, g4, g5, g6, g7, g8, g9, g10, g11⟩ := ih hm'
    obtain ⟨s1, s2, s3, s4, s5, s6, s7, s8, s9, s10, s11⟩ :=
      laborStep_spec cfg (loopTo cfg st0 m) m g1 g2 g3 g4 g5 hmlt
    rw [loopTo_succ]
    refine ⟨s1, s2, s3, s4, s5, by rw [s6]; exact g6,
      fun j => by rw [s7 j]; exact g7 j, ?_, ?_, ?_, ?_⟩
    · intro l hlm j
      rw [s8 j l (by omega)]
      exact g8 l (by omega) j
    · intro l hlm
      rw [s9 l (by omega)]
      exact g9 l (by omega)
    · intro l hlm hmin hmax
      by_cases hlm' : l = m
      · subst hlm'
        exact s10 hmin hmax
      · rw [s9 l hlm']
        exact g10 l (by omega) hmin hmax
    · intro l j hlcfg hcap hflag
      by_cases hlm' : l = m
      · subst hlm'
        have heligl : eligHolders (loopTo cfg st0 l).units l
            = eligHolders st0.units l :=
          eligHolders_congr _ _ l g6 g7 (fun j => g8 l (le_refl l) j)
        have hcur : getI (loopTo cfg st0 l).active l ≤ (cfgAt cfg l).maximum := by
          rw [g2 l hlcfg, heligl]
          exact hcap
        exact s11 hcur j (g11 l j hlcfg hcap hflag)
      · rw [s8 j l hlm']
        exact g11 l j hlcfg hcap hflag

/-! ## Safety-net lemmas -/

theorem applyPick_mono (units : List DfUnit) (i : Nat)
    (r : Option Nat × Nat × List Nat) (j l : Nat)
    (h : flagOf units j l = true) : flagOf (applyPick units i r) j l = true := by
  unfold applyPick
  by_cases hf : r.2.1 ≠ 0
  · rw [if_pos hf]
    cases hsel : r.1 with
    | none => exact h
    | some l' =>
      by_cases hll : l' = l
      · subst hll
        exact flagOf_setFlag_true_mono units i j l' h
      · rw [flagOf_setFlag_other units i j l' l true (Or.inr (fun hc => hll hc.symm))]
        exact h
  · rw [if_neg hf]
    exact h

theorem safetyStep_mono (cfg : List LaborInfo) (act : List Int)
    (acc : List DfUnit × List Nat) (w : Worker) (j l : Nat)
    (h : flagOf acc.1 j l = true) :
    flagOf (safetyStep cfg act acc w).1 j l = true := by
  unfold safetyStep
  by_cases h1 : w.skilled = 0
  · rw [if_pos h1]
    by_cases h2 : w.unskilled = 0
    · simp only [h2, if_true]
      exact applyPick_mono acc.1 w.idx _ j l h
    · simp only [h2, if_false]
      exact applyPick_mono acc.1 w.idx _ j l h
  · rw [if_neg h1]
    by_cases h2 : w.unskilled = 0
    · rw [if_pos h2]
      exact applyPick_mono acc.1 w.idx _ j l h
    · rw [if_neg h2]
      exact h

theorem safetyFold_mono (cfg : List LaborInfo) (act : List Int) :
    ∀ (ws : List Worker) (acc : List DfUnit × List Nat) (j l : Nat),
      flagOf acc.1 j l = true →
      flagOf (ws.foldl (safetyStep cfg act) acc).1 j l = true := by
  intro ws
  induction ws with
  | nil => intro acc j l h; exact h
  | cons w ws ih =>
    intro acc j l h
    rw [List.foldl_cons]
    exact ih (safetyStep cfg act acc w) j l (safetyStep_mono cfg act acc w j l h)

theorem safetyFold_skip (cfg : List LaborInfo) (act : List Int) :
    ∀ (ws : List Worker) (acc : List DfUnit × List Nat),
      (∀ w ∈ ws, ¬ w.skilled = 0 ∧ ¬ w.unskilled = 0) →
      ws.foldl (safetyStep cfg act) acc = acc := by
  intro ws
  induction ws with
  | nil => intro acc _; rfl
  | cons w ws ih =>
    intro acc hcov
    obtain ⟨h1, h2⟩ := hcov w (List.mem_cons_self w ws)
    rw [List.foldl_cons]
    have hstep : safetyStep cfg act acc w = acc := by
      unfold safetyStep
      rw [if_neg h1, if_neg h2]
    rw [hstep]
    exact ih acc (fun w' hw' => hcov w' (List.mem_cons_of_mem w hw'))

/-- The correction loop keeps every labor untouched when every labor is
already within its configured bounds. -/
theorem loopTo_id (cfg : List LaborInfo) (st0 : PassSt)
    (h : ∀ l, l < cfg.length →
      ¬(getI st0.active l < (cfgAt cfg l).minimum)
      ∧ ¬(getI st0.active l > (cfgAt cfg l).maximum)) :
    ∀ n, n ≤ cfg.length → loopTo cfg st0 n = st0 := by
  intro n
  induction n with
  | zero => intro _; rfl
  | succ m ih =>
    intro hm
    have hm' : m ≤ cfg.length := by omega
    rw [loopTo_succ, ih hm']
    obtain ⟨h1, h2⟩ := h m (by omega)
    simp [laborStep, h1, h2]

/-! ## Claim theorems -/

/-- An eligible test unit with the given flags and skill records. -/
def mkUnit (flags : List Bool) (sks : List SkillRec) : DfUnit :=
  { hasSoul := true, citizen := true, adult := true, drunk := false,
    military := false, skills := sks, labors := fun l => flags.getD l false }

/-- Claim C1 (code bug): for a fully idle worker, the safety net sets
the one reservoir-picked skilled labor (labor 0), but labor 1 — an
unskilled labor below its maximum, which the source comment says is to
be enabled along with every other available unskilled labor — stays
disabled: the loop only overwrites the dead local variable selected,
as deadUnskilledScan (its value, some 1, is never used) shows. -/
theorem c1_dead_unskilled_enable :
    flagOf (check_dwarves [⟨some 0, false, 0, 5⟩, ⟨none, false, 0, 5⟩]
      [mkUnit [] []] []) 0 0 = true
    ∧ flagOf (check_dwarves [⟨some 0, false, 0, 5⟩, ⟨none, false, 0, 5⟩]
      [mkUnit [] []] []) 0 1 = false
    ∧ unskilledCand [⟨some 0, false, 0, 5⟩, ⟨none, false, 0, 5⟩]
        (check_dwarves_full [⟨some 0, false, 0, 5⟩, ⟨none, false, 0, 5⟩]
          [mkUnit [] []] []).active 1 = true
    ∧ deadUnskilledScan [⟨some 0, false, 0, 5⟩, ⟨none, false, 0, 5⟩]
        (check_dwarves_full [⟨some 0, false, 0, 5⟩, ⟨none, false, 0, 5⟩]
          [mkUnit [] []] []).active (some 0) = some 1 := by
  refine ⟨?_, ?_, ?_, ?_⟩ <;> decide

/-- Claim C2 counterexample: after a pass in which the safety net
enabled skilled labor 0 on the only (idle) worker, the labor's active
counter is still 0 while one eligible worker holds the flag. -/
theorem c2_counterexample :
    getI (check_dwarves_full [⟨some 0, false, 0, 5⟩] [mkUnit [] []] []).active 0 = 0
    ∧ eligHolders
        (check_dwarves_full [⟨some 0, false, 0, 5⟩] [mkUnit [] []] []).units 0
      = 1 := by
  constructor <;> decide

/-- Claim C2 amended: the counter invariant (active equals the number
of eligible holders) holds after the recount and at every intermediate
point of the per-labor correction loop — after the first n labor
corrections, for every n up to the labor count — and hence after the
whole loop; the safety net then sets flags without updating active, so
it can break after a safety-net enable. -/
theorem c2_amended_invariant (cfg : List LaborInfo) (units : List DfUnit)
    (n l : Nat) (hn : n ≤ cfg.length) (hl : l < cfg.length) :
    getI (buildWorkers cfg units).1 l = eligHolders units l
    ∧ getI (loopTo cfg
        ⟨(buildWorkers cfg units).1, (buildWorkers cfg units).2, units⟩ n).active l
      = eligHolders (loopTo cfg
          ⟨(buildWorkers cfg units).1, (buildWorkers cfg units).2, units⟩ n).units l
    ∧ getI (correctionsStage cfg units).active l
        = eligHolders (correctionsStage cfg units).units l := by
  obtain ⟨b1, b2, b3, b4, b5⟩ := buildWorkers_spec cfg units
  have hcover : ((buildWorkers cfg units).2.map (fun w => w.idx)).Perm
      (eligIdx units) := by
    rw [buildWorkers_idx]
  obtain ⟨_, g2, _⟩ := loopTo_spec cfg
    ⟨(buildWorkers cfg units).1, (buildWorkers cfg units).2, units⟩
    b1 b2 (fun w hw => ⟨(b3 w hw).1, (b3 w hw).2.1⟩) b4 hcover n hn
  obtain ⟨_, gfull, _⟩ := loopTo_spec cfg
    ⟨(buildWorkers cfg units).1, (buildWorkers cfg units).2, units⟩
    b1 b2 (fun w hw => ⟨(b3 w hw).1, (b3 w hw).2.1⟩) b4 hcover
    cfg.length (le_refl _)
  refine ⟨b2 l hl, g2 l hl, ?_⟩
  rw [correctionsStage_eq_loopTo]
  exact gfull l hl

/-- Configuration for the C2 witness: two unskilled labors; labor 0 has
maximum 1 and is held by both workers, so its surplus correction fires
at the loop's first step. -/
def c2cfg : List LaborInfo := [⟨none, false, 0, 1⟩, ⟨none, false, 0, 5⟩]

def c2units : List DfUnit := [mkUnit [true] [], mkUnit [true] []]

def c2st0 : PassSt :=
  ⟨(buildWorkers c2cfg c2units).1, (buildWorkers c2cfg c2units).2, c2units⟩

/-- Claim C2 amended, witness at the intermediate point after the first
labor's correction (n = 1 of 2 labors), where surplus correction has
just dropped labor 0 from two holders to one. -/
theorem c2_witness :
    (1 ≤ c2cfg.length ∧ 0 < c2cfg.length)
    ∧ (getI (buildWorkers c2cfg c2units).1 0 = eligHolders c2units 0
      ∧ getI (loopTo c2cfg c2st0 1).active 0
          = eligHolders (loopTo c2cfg c2st0 1).units 0
      ∧ getI (correctionsStage c2cfg c2units).active 0
          = eligHolders (correctionsStage c2cfg c2units).units 0) :=
  ⟨⟨by decide, by decide⟩,
   c2_amended_invariant c2cfg c2units 1 0 (by decide) (by decide)⟩

/-- Claim C3 counterexample: skilled labor 0 with maximum 1; two idle
workers each receive it from the safety net (the stale active counter
stays below the maximum), leaving 2 eligible holders > maximum 1. -/
theorem c3_counterexample :
    eligHolders
      (check_dwarves [⟨some 0, false, 0, 1⟩] [mkUnit [] [], mkUnit [] []] []) 0
      = 2
    ∧ (cfgAt [⟨some 0, false, 0, 1⟩] 0).maximum = 1 := by
  constructor <;> decide

/-- Claim C3 amended: after the correction loop and before the safety
net, every labor with 0 ≤ maximum and minimum ≤ maximum has at most
maximum eligible holders; the safety net can push holders past the
maximum because it does not update the active counters. -/
theorem c3_amended_bound (cfg : List LaborInfo) (units : List DfUnit) (l : Nat)
    (hl : l < cfg.length)
    (hmm : (cfgAt cfg l).minimum ≤ (cfgAt cfg l).maximum)
    (hm0 : 0 ≤ (cfgAt cfg l).maximum) :
    eligHolders (correctionsStage cfg units).units l ≤ (cfgAt cfg l).maximum := by
  obtain ⟨b1, b2, b3, b4, b5⟩ := buildWorkers_spec cfg units
  rw [correctionsStage_eq_loopTo]
  have hcover : ((buildWorkers cfg units).2.map (fun w => w.idx)).Perm
      (eligIdx units) := by
    rw [buildWorkers_idx]
  obtain ⟨_, g2, _, _, _, _, _, _, _, g10, _⟩ := loopTo_spec cfg
    ⟨(buildWorkers cfg units).1, (buildWorkers cfg units).2, units⟩
    b1 b2 (fun w hw => ⟨(b3 w hw).1, (b3 w hw).2.1⟩) b4 hcover
    cfg.length (le_refl _)
  rw [← g2 l hl]
  exact g10 l hl hmm hm0

/-- Claim C3 amended, witness: two holders of an unskilled labor with
maximum 1 are reduced to one holder by surplus correction. -/
theorem c3_witness :
    (0 < 1 ∧ (cfgAt [⟨none, false, 0, 1⟩] 0).minimum ≤ (cfgAt [⟨none, false, 0, 1⟩] 0).maximum
      ∧ 0 ≤ (cfgAt [⟨none, false, 0, 1⟩] 0).maximum)
    ∧ eligHolders
        (correctionsStage [⟨none, false, 0, 1⟩]
          [mkUnit [true] [], mkUnit [true] []]).units 0
      ≤ (cfgAt [⟨none, false, 0, 1⟩] 0).maximum :=
  ⟨⟨by decide, by decide, by decide⟩,
   c3_amended_bound [⟨none, false, 0, 1⟩] [mkUnit [true] [], mkUnit [true] []] 0
     (by decide) (by decide) (by decide)⟩

/-- Claim C4 counterexample: one worker with a single rating-3 skill;
two unskilled labors below minimum each trigger a sort in the same
pass, and the final profile carries total_skill 6, twice the actual
skill-rating sum of 3. -/
theorem c4_counterexample :
    ((check_dwarves_full [⟨none, false, 1, 5⟩, ⟨none, false, 1, 5⟩]
        [mkUnit [] [⟨0, 3, 0, 0, 0⟩]] []).workers.map
      (fun w => w.total_skill)) = [6]
    ∧ skillMass (mkUnit [] [⟨0, 3, 0, 0, 0⟩]).skills = 3 := by
  constructor <;> decide

/-- Claim C4 amended: each sort adds the unit's skill-rating sum to the
profile's existing total_skill instead of resetting it, so the value
equals the sum only on the first sort of a pass and grows by the sum
on every further sort (relative order is unaffected, as every profile
grows alike). -/
theorem c4_amended_total_skill_accumulates (units : List DfUnit)
    (ws : List Worker) (ss : Option Nat) (w' : Worker)
    (hw' : w' ∈ sortUnitsBySkill units ws ss) :
    ∃ w ∈ ws, w'.idx = w.idx
      ∧ w'.total_skill = w.total_skill + skillMass (getU units w.idx).skills := by
  obtain ⟨w, hw, h1, _, _, _, h5⟩ := sortUnits_mem units ws ss w' hw'
  exact ⟨w, hw, h1, h5⟩

/-- Claim C4 amended, witness: the sorted profile of a fresh worker
carries total_skill 0 + 3. -/
theorem c4_witness :
    ((⟨0, 0, 0, 3, none, none, some ⟨0, 3, 0, 0, 0⟩⟩ : Worker)
      ∈ sortUnitsBySkill [mkUnit [] [⟨0, 3, 0, 0, 0⟩]] [tallyInit 0] none)
    ∧ ∃ w ∈ [tallyInit 0],
        (⟨0, 0, 0, 3, none, none, some ⟨0, 3, 0, 0, 0⟩⟩ : Worker).idx = w.idx
        ∧ (⟨0, 0, 0, 3, none, none, some ⟨0, 3, 0, 0, 0⟩⟩ : Worker).total_skill
            = w.total_skill
              + skillMass (getU [mkUnit [] [⟨0, 3, 0, 0, 0⟩]] w.idx).skills :=
  ⟨by decide,
   c4_amended_total_skill_accumulates [mkUnit [] [⟨0, 3, 0, 0, 0⟩]] [tallyInit 0]
     none ⟨0, 0, 0, 3, none, none, some ⟨0, 3, 0, 0, 0⟩⟩ (by decide)⟩

/-- Claim C5 counterexample: two records equal on rating and
experience; the not-rusty one does not outrank the rusty one — the
comparison goes the other way. -/
theorem c5_counterexample :
    moreSkilled (some ⟨0, 5, 100, 0, 0⟩) (some ⟨0, 5, 100, 1, 0⟩) = false
    ∧ moreSkilled (some ⟨0, 5, 100, 1, 0⟩) (some ⟨0, 5, 100, 0, 0⟩) = true := by
  constructor <;> decide

/-- Claim C5 amended: between present records equal on rating and
experience, moreSkilled ranks the record with the higher rusty value
above (Compare returns rusty1 > rusty2, so rustier wins). -/
theorem c5_amended_rusty_outranks (s1 s2 : SkillRec)
    (hr : s1.rating = s2.rating) (he : s1.experience = s2.experience)
    (hru : s2.rusty < s1.rusty) :
    moreSkilled (some s1) (some s2) = true := by
  have hunf : moreSkilled (some s1) (some s2)
      = (if s1.rating ≠ s2.rating then decide (s1.rating > s2.rating)
         else if s1.experience ≠ s2.experience then
           decide (s1.experience > s2.experience)
         else if s1.rusty ≠ s2.rusty then decide (s1.rusty > s2.rusty)
         else if s1.rust_counter ≠ s2.rust_counter then
           decide (s1.rust_counter > s2.rust_counter)
         else false) := rfl
  rw [hunf]
  rw [if_neg (by omega : ¬ s1.rating ≠ s2.rating)]
  rw [if_neg (by omega : ¬ s1.experience ≠ s2.experience)]
  rw [if_pos (by omega : s1.rusty ≠ s2.rusty)]
  simp only [decide_eq_true_eq]
  omega

/-- Claim C5 amended, witness at concrete records. -/
theorem c5_witness :
    ((⟨0, 5, 100, 1, 0⟩ : SkillRec).rating = (⟨0, 5, 100, 0, 0⟩ : SkillRec).rating
      ∧ (⟨0, 5, 100, 1, 0⟩ : SkillRec).experience
          = (⟨0, 5, 100, 0, 0⟩ : SkillRec).experience
      ∧ (⟨0, 5, 100, 0, 0⟩ : SkillRec).rusty < (⟨0, 5, 100, 1, 0⟩ : SkillRec).rusty)
    ∧ moreSkilled (some ⟨0, 5, 100, 1, 0⟩) (some ⟨0, 5, 100, 0, 0⟩) = true :=
  ⟨⟨by decide, by decide, by decide⟩,
   c5_amended_rusty_outranks ⟨0, 5, 100, 1, 0⟩ ⟨0, 5, 100, 0, 0⟩
     (by decide) (by decide) (by decide)⟩

/-- Configuration for the C6 idempotence counterexample: one skilled
and one unskilled labor, both with minimum 0 and maximum 5. -/
def c6cfg : List LaborInfo := [⟨some 0, false, 0, 5⟩, ⟨none, false, 0, 5⟩]

/-- First pass of the C6 counterexample over a single idle worker. -/
def c6run1 : PassResult := check_dwarves_full c6cfg [mkUnit [] []] []

/-- Claim C6 counterexample: the first pass leaves the worker with the
skilled labor only (the all-unskilled enable is dead code), so the
immediately following second pass enables unskilled labor 1 — the
second pass does make a change. -/
theorem c6_counterexample :
    flagOf c6run1.units 0 1 = false
    ∧ flagOf (check_dwarves_full c6cfg c6run1.units c6run1.rng).units 0 1
        = true := by
  constructor <;> decide

/-- Claim C6 amended: a pass from a state in which every labor's
eligible-holder count is within its configured bounds and every
eligible worker holds at least one skilled and one unskilled labor
changes nothing; a first pass need not establish such a state, so an
immediate second pass can still make changes. -/
theorem c6_amended_stable_noop (cfg : List LaborInfo) (units : List DfUnit)
    (rng : List Nat)
    (hb : ∀ l, l < cfg.length →
      (cfgAt cfg l).minimum ≤ eligHolders units l
      ∧ eligHolders units l ≤ (cfgAt cfg l).maximum)
    (hw : ∀ i, i < units.length → can_work (getU units i) = true →
      skilledCnt cfg (getU units i) ≠ 0 ∧ unskilledCnt cfg (getU units i) ≠ 0) :
    check_dwarves cfg units rng = units := by
  obtain ⟨b1, b2, b3, b4, b5⟩ := buildWorkers_spec cfg units
  have hid : correctionsStage cfg units
      = ⟨(buildWorkers cfg units).1, (buildWorkers cfg units).2, units⟩ := by
    rw [correctionsStage_eq_loopTo]
    refine loopTo_id cfg _ ?_ cfg.length (le_refl _)
    intro l hl
    have hcnt := b2 l hl
    obtain ⟨hlo, hhi⟩ := hb l hl
    constructor
    · show ¬ getI (buildWorkers cfg units).1 l < (cfgAt cfg l).minimum
      rw [hcnt]
      omega
    · show ¬ getI (buildWorkers cfg units).1 l > (cfgAt cfg l).maximum
      rw [hcnt]
      omega
  have hrun : check_dwarves cfg units rng
      = ((correctionsStage cfg units).workers.foldl
          (safetyStep cfg (correctionsStage cfg units).active)
          ((correctionsStage cfg units).units, rng)).1 := rfl
  rw [hrun, hid]
  dsimp only
  have hcov : ∀ w ∈ (buildWorkers cfg units).2,
      ¬ w.skilled = 0 ∧ ¬ w.unskilled = 0 := by
    intro w hw'
    obtain ⟨hb1', hb2', hsk, hun, _⟩ := b3 w hw'
    obtain ⟨h1, h2⟩ := hw w.idx hb1' hb2'
    constructor
    · rw [hsk]; exact h1
    · rw [hun]; exact h2
  rw [safetyFold_skip cfg (buildWorkers cfg units).1 (buildWorkers cfg units).2
    (units, rng) hcov]

/-- Claim C6 amended, witness at a stable one-worker state. -/
theorem c6_witness :
    ((∀ l, l < c6cfg.length →
        (cfgAt c6cfg l).minimum ≤ eligHolders [mkUnit [true, true] []] l
        ∧ eligHolders [mkUnit [true, true] []] l ≤ (cfgAt c6cfg l).maximum)
      ∧ (∀ i, i < ([mkUnit [true, true] []] : List DfUnit).length →
          can_work (getU [mkUnit [true, true] []] i) = true →
          skilledCnt c6cfg (getU [mkUnit [true, true] []] i) ≠ 0
          ∧ unskilledCnt c6cfg (getU [mkUnit [true, true] []] i) ≠ 0))
    ∧ check_dwarves c6cfg [mkUnit [true, true] []] [] = [mkUnit [true, true] []] :=
  ⟨⟨by decide, by decide⟩,
   c6_amended_stable_noop c6cfg [mkUnit [true, true] []] [] (by decide) (by decide)⟩

/-- Claim C7: when a labor's active count exceeds its maximum (with
maximum at least 0), the surplus branch of the correction loop keeps
the labor on exactly the first maximum currently-assigned workers of
the sorted list — a worker keeps the flag iff it held it and fewer
than maximum holders precede it — disables it on every assigned worker
ranked beyond that quota, leaves non-holders (who consume no quota)
and all other labors unchanged. -/
theorem c7_surplus_correction (cfg : List LaborInfo) (st : PassSt) (l : Nat)
    (hmin : ¬ getI st.active l < (cfgAt cfg l).minimum)
    (hmax : (cfgAt cfg l).maximum < getI st.active l)
    (h0 : 0 ≤ (cfgAt cfg l).maximum)
    (hcnt : (countH (sortUnitsBySkill st.units st.workers (cfgAt cfg l).skill)
        st.units l : Int) = getI st.active l)
    (hnd : ((sortUnitsBySkill st.units st.workers (cfgAt cfg l).skill).map
        (fun w => w.idx)).Nodup)
    (hbnd : ∀ w ∈ sortUnitsBySkill st.units st.workers (cfgAt cfg l).skill,
        w.idx < st.units.length) :
    (∀ k, (hk : k < (sortUnitsBySkill st.units st.workers
        (cfgAt cfg l).skill).length) →
      flagOf (laborStep cfg st l).units
          ((sortUnitsBySkill st.units st.workers (cfgAt cfg l).skill).get
            ⟨k, hk⟩).idx l
        = (flagOf st.units
            ((sortUnitsBySkill st.units st.workers (cfgAt cfg l).skill).get
              ⟨k, hk⟩).idx l
            && decide ((countH ((sortUnitsBySkill st.units st.workers
                (cfgAt cfg l).skill).take k) st.units l : Int)
              < (cfgAt cfg l).maximum)))
    ∧ (∀ j l', l' ≠ l →
        flagOf (laborStep cfg st l).units j l' = flagOf st.units j l')
    ∧ (∀ j, (∀ w ∈ sortUnitsBySkill st.units st.workers (cfgAt cfg l).skill,
          w.idx ≠ j) →
        flagOf (laborStep cfg st l).units j l = flagOf st.units j l) := by
  have hunf : laborStep cfg st l
      = ⟨(surplusWalk cfg l
            (sortUnitsBySkill st.units st.workers (cfgAt cfg l).skill)
            st.units st.active (cfgAt cfg l).maximum
            (getI st.active l - (cfgAt cfg l).maximum)).2.2,
         (surplusWalk cfg l
            (sortUnitsBySkill st.units st.workers (cfgAt cfg l).skill)
            st.units st.active (cfgAt cfg l).maximum
            (getI st.active l - (cfgAt cfg l).maximum)).1,
         (surplusWalk cfg l
            (sortUnitsBySkill st.units st.workers (cfgAt cfg l).skill)
            st.units st.active (cfgAt cfg l).maximum
            (getI st.active l - (cfgAt cfg l).maximum)).2.1⟩ := by
    simp [laborStep, hmin, hmax]
  obtain ⟨f1, f2, f3, f4, f5, f6, f7, f8, f9⟩ :=
    surplusWalk_frame cfg l
      (sortUnitsBySkill st.units st.workers (cfgAt cfg l).skill)
      st.units st.active (cfgAt cfg l).maximum
      (getI st.active l - (cfgAt cfg l).maximum)
  have hchar := surplusWalk_char cfg l
    (sortUnitsBySkill st.units st.workers (cfgAt cfg l).skill)
    st.units st.active (cfgAt cfg l).maximum
    (getI st.active l - (cfgAt cfg l).maximum)
    hbnd hnd h0 (by omega) (by omega)
  refine ⟨?_, ?_, ?_⟩
  · intro k hk
    rw [hunf]
    exact hchar k hk
  · intro j l' h
    rw [hunf]
    exact f4 j l' h
  · intro j h
    rw [hunf]
    exact f5 j h

/-- Configuration for the C7 witness: one unskilled labor with
minimum 0 and maximum 1, held by all three eligible workers. -/
def c7cfg : List LaborInfo := [⟨none, false, 0, 1⟩]

def c7units : List DfUnit := [mkUnit [true] [], mkUnit [true] [], mkUnit [true] []]

def c7st : PassSt :=
  ⟨(buildWorkers c7cfg c7units).1, (buildWorkers c7cfg c7units).2, c7units⟩

/-- Claim C7, witness: three holders and maximum 1; the first sorted
holder is kept and the other two are disabled. -/
theorem c7_witness :
    ((¬ getI c7st.active 0 < (cfgAt c7cfg 0).minimum)
      ∧ (cfgAt c7cfg 0).maximum < getI c7st.active 0
      ∧ 0 ≤ (cfgAt c7cfg 0).maximum
      ∧ (countH (sortUnitsBySkill c7st.units c7st.workers (cfgAt c7cfg 0).skill)
          c7st.units 0 : Int) = getI c7st.active 0
      ∧ ((sortUnitsBySkill c7st.units c7st.workers (cfgAt c7cfg 0).skill).map
          (fun w => w.idx)).Nodup
      ∧ (∀ w ∈ sortUnitsBySkill c7st.units c7st.workers (cfgAt c7cfg 0).skill,
          w.idx < c7st.units.length))
    ∧ ((∀ k, (hk : k < (sortUnitsBySkill c7st.units c7st.workers
          (cfgAt c7cfg 0).skill).length) →
        flagOf (laborStep c7cfg c7st 0).units
            ((sortUnitsBySkill c7st.units c7st.workers (cfgAt c7cfg 0).skill).get
              ⟨k, hk⟩).idx 0
          = (flagOf c7st.units
              ((sortUnitsBySkill c7st.units c7st.workers (cfgAt c7cfg 0).skill).get
                ⟨k, hk⟩).idx 0
              && decide ((countH ((sortUnitsBySkill c7st.units c7st.workers
                  (cfgAt c7cfg 0).skill).take k) c7st.units 0 : Int)
                < (cfgAt c7cfg 0).maximum)))
      ∧ (∀ j l', l' ≠ 0 →
          flagOf (laborStep c7cfg c7st 0).units j l' = flagOf c7st.units j l')
      ∧ (∀ j, (∀ w ∈ sortUnitsBySkill c7st.units c7st.workers (cfgAt c7cfg 0).skill,
            w.idx ≠ j) →
          flagOf (laborStep c7cfg c7st 0).units j 0 = flagOf c7st.units j 0)) :=
  ⟨⟨by decide, by decide, by decide, by decide, by decide, by decide⟩,
   c7_surplus_correction c7cfg c7st 0 (by decide) (by decide) (by decide)
     (by decide) (by decide) (by decide)⟩

/-- Claim C8 counterexample: labor 0 is uniformed (mutual-exclusion
group) and below its minimum; deficit correction enables it on a
worker who did not hold it, so the pass does write a uniformed flag. -/
theorem c8_counterexample :
    (cfgAt [⟨some 0, true, 1, 5⟩] 0).uniformed = true
    ∧ flagOf [mkUnit [] []] 0 0 = false
    ∧ flagOf (check_dwarves [⟨some 0, true, 1, 5⟩] [mkUnit [] []] []) 0 0
        = true := by
  refine ⟨?_, ?_, ?_⟩ <;> decide

/-- Claim C8 amended: the recount reads the uniformed flags only to
classify each worker's held exclusive labor — the profile's uniform
field is the last uniformed labor the unit holds in enumeration order —
but uniformed labors are not otherwise protected: the corrections can
enable or disable them like any other labor. -/
theorem c8_amended_uniform_classification (cfg : List LaborInfo) (u : DfUnit)
    (i : Nat) (act : List Int) (hlen : act.length = cfg.length) :
    (tallyWorker cfg u i act).2.uniform = uniformHeldSpec cfg u := by
  obtain ⟨_, _, _, _, _, _, _, _, t9⟩ := tallyWorker_spec cfg u i act hlen
  exact t9

/-- Claim C8 amended, witness: a unit holding two uniformed labors is
classified by the last one. -/
theorem c8_witness :
    (([(0 : Int), 0] : List Int).length
        = ([⟨some 0, true, 1, 5⟩, ⟨none, true, 0, 5⟩] : List LaborInfo).length)
    ∧ (tallyWorker [⟨some 0, true, 1, 5⟩, ⟨none, true, 0, 5⟩]
        (mkUnit [true, true] []) 0 [0, 0]).2.uniform
      = uniformHeldSpec [⟨some 0, true, 1, 5⟩, ⟨none, true, 0, 5⟩]
          (mkUnit [true, true] []) :=
  ⟨by decide,
   c8_amended_uniform_classification [⟨some 0, true, 1, 5⟩, ⟨none, true, 0, 5⟩]
     (mkUnit [true, true] []) 0 [0, 0] (by decide)⟩

/-- Claim C9: the scheduled entry point runs a pass exactly when the
enabled flag is set, fortress mode holds, and at least DELTA_TICKS
frames have elapsed since the last run; in every other case the state
is untouched, and the returned command result is always CR_OK. -/
theorem c9_onupdate_guard (cfg : List LaborInfo) (s : GlobalSt) :
    (plugin_onupdate cfg s).1 = CommandResult.CR_OK
    ∧ (plugin_onupdate cfg s).2
        = (if s.enabled = true ∧ s.fortressMode = true
              ∧ DELTA_TICKS ≤ s.frame_counter - s.last_frame_count
           then afterPass cfg s else s) := by
  have hiff : (s.enabled && s.fortressMode
      && decide (s.frame_counter - s.last_frame_count ≥ DELTA_TICKS)) = true
      ↔ (s.enabled = true ∧ s.fortressMode = true
          ∧ DELTA_TICKS ≤ s.frame_counter - s.last_frame_count) := by
    simp [Bool.and_eq_true, and_assoc, ge_iff_le]
  constructor
  · unfold plugin_onupdate
    split <;> rfl
  · unfold plugin_onupdate
    by_cases hc : s.enabled = true ∧ s.fortressMode = true
        ∧ DELTA_TICKS ≤ s.frame_counter - s.last_frame_count
    · rw [if_pos (hiff.mpr hc), if_pos hc]
    · rw [if_neg (fun hb => hc (hiff.mp hb)), if_neg hc]

/-- Claim C10: a pass clears assignment flags only during surplus
correction of a labor whose active count exceeds its maximum: if a
labor's eligible-holder count starts within its maximum, no worker's
flag for it is ever turned off (deficit correction and the safety net
only enable flags). -/
theorem c10_no_clear_within_cap (cfg : List LaborInfo) (units : List DfUnit)
    (rng : List Nat) (l j : Nat) (hl : l < cfg.length)
    (hcap : eligHolders units l ≤ (cfgAt cfg l).maximum)
    (hflag : flagOf units j l = true) :
    flagOf (check_dwarves cfg units rng) j l = true := by
  obtain ⟨b1, b2, b3, b4, b5⟩ := buildWorkers_spec cfg units
  have hcover : ((buildWorkers cfg units).2.map (fun w => w.idx)).Perm
      (eligIdx units) := by
    rw [buildWorkers_idx]
  obtain ⟨_, _, _, _, _, _, _, _, _, _, g11⟩ := loopTo_spec cfg
    ⟨(buildWorkers cfg units).1, (buildWorkers cfg units).2, units⟩
    b1 b2 (fun w hw => ⟨(b3 w hw).1, (b3 w hw).2.1⟩) b4 hcover
    cfg.length (le_refl _)
  have hloop := g11 l j hl hcap hflag
  have hrun : check_dwarves cfg units rng
      = ((correctionsStage cfg units).workers.foldl
          (safetyStep cfg (correctionsStage cfg units).active)
          ((correctionsStage cfg units).units, rng)).1 := rfl
  rw [hrun, correctionsStage_eq_loopTo]
  exact safetyFold_mono cfg _ _ _ j l hloop

/-- Claim C10, witness: a held unskilled labor within its maximum
survives the pass. -/
theorem c10_witness :
    (0 < ([⟨none, false, 0, 5⟩] : List LaborInfo).length
      ∧ eligHolders [mkUnit [true] []] 0 ≤ (cfgAt [⟨none, false, 0, 5⟩] 0).maximum
      ∧ flagOf [mkUnit [true] []] 0 0 = true)
    ∧ flagOf (check_dwarves [⟨none, false, 0, 5⟩] [mkUnit [true] []] []) 0 0
        = true :=
  ⟨⟨by decide, by decide, by decide⟩,
   c10_no_clear_within_cap [⟨none, false, 0, 5⟩] [mkUnit [true] []] [] 0 0
     (by decide) (by decide) (by decide)⟩
